import Mathlib

/-!
Shallow embedding of the py_to_asm compiler
(src/py_to_asm_compiler.py and src/x86_code_generator.py),
together with theorems settling the frozen claims about it.

Strings are modelled as Lean `String`/`List Char`; Python's character
class tests are modelled on their ASCII fragment (the source language is
ASCII).  Python exceptions are modelled with `Except String`; places
where the Python code would crash with an IndexError (reading past the
end of the token list) are modelled by a distinguished "IndexError"
value and are unreachable on lexer-produced input.  Loops are modelled
as fuel-indexed structural recursions; the top-level entry points supply
fuel that provably suffices, so all definitions compute by `decide`/`rfl`.
-/

namespace PyToAsm

/-! ## Data model: tokens (class TokenType / class Token) -/

inductive TokenType where
  | NUMBER
  | IDENTIFIER
  | OPERATOR
  | KEYWORD
  | INDENT
  | DEDENT
  | NEWLINE
  | EOF
deriving DecidableEq, Repr

structure Token where
  type : TokenType
  value : String
  line : Nat
  column : Nat
deriving DecidableEq, Repr

/-! ## Character classification (Python str methods, ASCII fragment) -/

/-- Python `char.isspace()` restricted to ASCII. -/
def pyIsSpace (c : Char) : Bool :=
  c = ' ' || c = '\t' || c = '\n' || c = '\x0d' || c = '\x0b' || c = '\x0c'

/-- Python `char.isdigit()` restricted to ASCII. -/
def pyIsDigit (c : Char) : Bool :=
  '0' ≤ c && c ≤ '9'

/-- Python `char.isalpha()` restricted to ASCII. -/
def pyIsAlpha (c : Char) : Bool :=
  ('a' ≤ c && c ≤ 'z') || ('A' ≤ c && c ≤ 'Z')

/-- Python `char.isalnum()` restricted to ASCII. -/
def pyIsAlnum (c : Char) : Bool :=
  pyIsAlpha c || pyIsDigit c

/-- Characters allowed inside an identifier run: `isalnum() or == '_'`. -/
def isIdentChar (c : Char) : Bool :=
  pyIsAlnum c || c = '_'

/-- The operator start set: `char in '+-*\x2f<>='`. -/
def isOpChar (c : Char) : Bool :=
  c = '+' || c = '-' || c = '*' || c = '/' || c = '<' || c = '>' || c = '='

/-- Characters counted by `handle_indentation`: `char in ' \t'`. -/
def isBlank (c : Char) : Bool :=
  c = ' ' || c = '\t'

/-! ## Lexer (class Lexer) -/

/-- Lexer state: remaining source, current line/column, indentation
stack.  The Python `indent_stack` grows at the end; here the head of the
list is the top of the stack.  The invariant `indentStack ≠ []` holds
throughout (it is initialised to `[0]` and `0` is never popped). -/
structure LexState where
  src : List Char
  line : Nat
  column : Nat
  indentStack : List Nat
deriving DecidableEq, Repr

/-- The indentation scan of `handle_indentation`: consume leading
spaces/tabs, a space counting 1 and a tab counting 4.  Returns
(accumulated width, number of characters consumed, remaining source). -/
def scanIndent : List Char → Nat × Nat × List Char
  | [] => (0, 0, [])
  | c :: cs =>
    if c = ' ' then
      let r := scanIndent cs
      (r.1 + 1, r.2.1 + 1, r.2.2)
    else if c = '\t' then
      let r := scanIndent cs
      (r.1 + 4, r.2.1 + 1, r.2.2)
    else (0, 0, c :: cs)

/-- The DEDENT-emission loop of `handle_indentation`: pop stack entries
greater than the new width, emitting one DEDENT token per pop. -/
def popDedents (w : Nat) (ln : Nat) : List Nat → List Token × List Nat
  | [] => ([], [])
  | t :: rest =>
    if w < t then
      let r := popDedents w ln rest
      (Token.mk .DEDENT "" ln 1 :: r.1, r.2)
    else ([], t :: rest)

/-- A run of `n` spaces, the Python `' ' * n`. -/
def spacesStr (n : Nat) : String := ⟨List.replicate n ' '⟩

/-- `Lexer.handle_indentation`, called immediately after a NEWLINE has
been emitted (so `line` is the new line and `column` is 1 plus whatever
the scan consumes).  Emits one INDENT (carrying `' ' * indent_level` as
its text) or zero or more DEDENTs. -/
def handleIndentation (st : LexState) : List Token × LexState :=
  let s := scanIndent st.src
  let st1 : LexState :=
    { st with src := s.2.2, column := st.column + s.2.1 }
  match st1.indentStack with
  | [] => ([], st1)   -- unreachable: the stack always contains 0
  | top :: _ =>
    if s.1 > top then
      ([Token.mk .INDENT (spacesStr s.1) st.line 1],
       { st1 with indentStack := s.1 :: st1.indentStack })
    else
      let r := popDedents s.1 st.line st1.indentStack
      (r.1, { st1 with indentStack := r.2 })

/-- One iteration of the `Lexer.tokenize` while-loop, given that the
remaining source is `c :: cs`.  Returns the tokens emitted by this
iteration and the successor state. -/
def lexStep (st : LexState) (c : Char) (cs : List Char) : List Token × LexState :=
  if pyIsSpace c then
    if c = '\n' then
      let tNl := Token.mk .NEWLINE "\n" st.line st.column
      let st1 : LexState := { st with src := cs, line := st.line + 1, column := 1 }
      let r := handleIndentation st1
      (tNl :: r.1, r.2)
    else
      ([], { st with src := cs, column := st.column + 1 })
  else if c = '#' then
    -- comment: consume through (but not including) the next newline
    let v := st.src.takeWhile (fun x => ¬ (x = '\n'))
    ([], { st with src := st.src.dropWhile (fun x => ¬ (x = '\n')),
                   column := st.column + v.length })
  else if pyIsDigit c then
    -- Lexer.tokenize_number; the token column is `self.column - len(value)`
    let v := st.src.takeWhile pyIsDigit
    ([Token.mk .NUMBER ⟨v⟩ st.line ((st.column + v.length) - v.length)],
     { st with src := st.src.dropWhile pyIsDigit, column := st.column + v.length })
  else if pyIsAlpha c || c = '_' then
    -- Lexer.tokenize_identifier, reclassified to KEYWORD on the reserved set
    let v := st.src.takeWhile isIdentChar
    let ty := if (⟨v⟩ : String) ∈ (["if", "while", "for", "def", "return"] : List String)
              then TokenType.KEYWORD else TokenType.IDENTIFIER
    ([Token.mk ty ⟨v⟩ st.line ((st.column + v.length) - v.length)],
     { st with src := st.src.dropWhile isIdentChar, column := st.column + v.length })
  else if isOpChar c then
    -- Lexer.tokenize_operator: exactly one character
    ([Token.mk .OPERATOR ⟨[c]⟩ st.line ((st.column + 1) - 1)],
     { st with src := cs, column := st.column + 1 })
  else
    -- unrecognized character: skipped silently
    ([], { st with src := cs, column := st.column + 1 })

/-- The `Lexer.tokenize` while-loop, fuel-indexed.  Every iteration
consumes at least one source character, so any fuel exceeding the length
of the remaining source makes the loop run to completion. -/
def tokenizeLoop : Nat → LexState → List Token × LexState
  | 0, st => ([], st)
  | fuel + 1, st =>
    match st.src with
    | [] => ([], st)
    | c :: cs =>
      let r := lexStep st c cs
      let r2 := tokenizeLoop fuel r.2
      (r.1 ++ r2.1, r2.2)

/-- Initial lexer state built by `Lexer.__init__`. -/
def lexInit (s : String) : LexState :=
  { src := s.toList, line := 1, column := 1, indentStack := [0] }

/-- `Lexer.tokenize`: run the scan loop to completion, then append the
final EOF token (no DEDENT flush for open indentation levels). -/
def tokenize (s : String) : List Token :=
  let r := tokenizeLoop (s.toList.length + 1) (lexInit s)
  r.1 ++ [Token.mk .EOF "" r.2.line r.2.column]

/-! ## AST (classes NumberNode, BinaryOpNode, VariableNode, AssignmentNode, IfNode) -/

inductive ASTNode where
  | NumberNode (value : Int)
  | BinaryOpNode (left : ASTNode) (op : String) (right : ASTNode)
  | VariableNode (name : String)
  | AssignmentNode (name : String) (value : ASTNode)
  | IfNode (condition : ASTNode) (body : List ASTNode)
deriving Repr

/-- Python `int(...)` on the (digit-run) text of a NUMBER token. -/
def strToNat (s : String) : Nat :=
  s.toList.foldl (fun a c => a * 10 + (c.toNat - '0'.toNat)) 0

/-! ## Parser (class Parser)

The Python parser walks an index into the token list; here each parsing
function consumes a prefix of a `List Token` and returns the remainder.
`Parser.previous()` after a successful `match` is modelled by returning
the matched token directly.  Reading past the end of the list (a Python
IndexError) is modelled by the error value "IndexError"; it cannot occur
on lexer output, which always ends with an EOF token that is never
consumed. -/

def addOps : List String := ["+", "-"]
def mulOps : List String := ["*", "/"]
def cmpOps : List String := ["<", ">", "<=", ">=", "==", "!="]

/-- `Parser.is_at_end`: the current token is EOF ([] is the crash zone,
modelled as end). -/
def isAtEnd : List Token → Bool
  | [] => true
  | t :: _ => t.type = .EOF

/-- `Parser.check`: False at end of input, else compare the type. -/
def check (ty : TokenType) : List Token → Bool
  | [] => false
  | t :: _ => if t.type = .EOF then false else t.type = ty

/-- `Parser.peek_next().value` (a synthesized EOF token, with empty
text, stands in past the end of the list). -/
def peekNextValue : List Token → String
  | _ :: t :: _ => t.value
  | _ => ""

/-- `Parser.match` on a list of token-text strings: succeed on the first
entry equal to the current token's text, consuming the token.  (For the
operator lists used by the expression grammar this is equivalent to a
membership test on the current token's text.) -/
def matchVals (ops : List String) : List Token → Option (Token × List Token)
  | [] => none
  | t :: rest =>
    if t.type = .EOF then none
    else if t.value ∈ ops then some (t, rest) else none

/-- `Parser.consume_newline`: consume one NEWLINE if present. -/
def consumeNewline : List Token → List Token
  | [] => []
  | t :: rest => if t.type = .NEWLINE then rest else t :: rest

/-- `Parser.consume_dedent`: consume one DEDENT if present (no error
otherwise). -/
def consumeDedent (ts : List Token) : List Token :=
  if check .DEDENT ts then ts.tail else ts

/-- The newline-skipping loop at the start of `Parser.parse_statement`. -/
def skipNewlines : List Token → List Token
  | [] => []
  | t :: rest => if t.type = .NEWLINE then skipNewlines rest else t :: rest

/-- Error message for `Parser.parse_primary`'s failure case (Python
interpolates the Token object; we render its text). -/
def unexpectedTokenMsg (t : Token) : String :=
  "Unexpected token: " ++ t.value

/-- `Parser.parse_primary`: a NUMBER yields a literal, an IDENTIFIER a
variable reference, anything else is an unexpected-token error. -/
def parsePrimary : List Token → Except String (ASTNode × List Token)
  | [] => .error "IndexError"
  | t :: rest =>
    if t.type = .NUMBER then .ok (.NumberNode (strToNat t.value), rest)
    else if t.type = .IDENTIFIER then .ok (.VariableNode t.value, rest)
    else .error (unexpectedTokenMsg t)

/-- The `while self.match(['*', '\x2f'])` loop of `Parser.parse_factor`;
each iteration consumes at least two tokens, so fuel exceeding the list
length suffices. -/
def parseFactorLoop : Nat → ASTNode → List Token → Except String (ASTNode × List Token)
  | 0, e, ts => .ok (e, ts)
  | fuel + 1, e, ts =>
    match matchVals mulOps ts with
    | none => .ok (e, ts)
    | some (t, ts1) =>
      match parsePrimary ts1 with
      | .error m => .error m
      | .ok (r, ts2) => parseFactorLoop fuel (.BinaryOpNode e t.value r) ts2

/-- `Parser.parse_factor`. -/
def parseFactor (ts : List Token) : Except String (ASTNode × List Token) :=
  match parsePrimary ts with
  | .error m => .error m
  | .ok (e, r) => parseFactorLoop (r.length + 1) e r

/-- The `while self.match(['+', '-'])` loop of `Parser.parse_term`. -/
def parseTermLoop : Nat → ASTNode → List Token → Except String (ASTNode × List Token)
  | 0, e, ts => .ok (e, ts)
  | fuel + 1, e, ts =>
    match matchVals addOps ts with
    | none => .ok (e, ts)
    | some (t, ts1) =>
      match parseFactor ts1 with
      | .error m => .error m
      | .ok (r, ts2) => parseTermLoop fuel (.BinaryOpNode e t.value r) ts2

/-- `Parser.parse_term`. -/
def parseTerm (ts : List Token) : Except String (ASTNode × List Token) :=
  match parseFactor ts with
  | .error m => .error m
  | .ok (e, r) => parseTermLoop (r.length + 1) e r

/-- The comparison-operator loop of `Parser.parse_comparison` (the
matched texts include the two-character operators, which the lexer never
produces). -/
def parseComparisonLoop : Nat → ASTNode → List Token → Except String (ASTNode × List Token)
  | 0, e, ts => .ok (e, ts)
  | fuel + 1, e, ts =>
    match matchVals cmpOps ts with
    | none => .ok (e, ts)
    | some (t, ts1) =>
      match parseTerm ts1 with
      | .error m => .error m
      | .ok (r, ts2) => parseComparisonLoop fuel (.BinaryOpNode e t.value r) ts2

/-- `Parser.parse_comparison`. -/
def parseComparison (ts : List Token) : Except String (ASTNode × List Token) :=
  match parseTerm ts with
  | .error m => .error m
  | .ok (e, r) => parseComparisonLoop (r.length + 1) e r

/-- `Parser.parse_expression`. -/
def parseExpression (ts : List Token) : Except String (ASTNode × List Token) :=
  parseComparison ts

/-- `Parser.parse_assignment`: consume the name, consume the `=` token
unconditionally, parse the value expression. -/
def parseAssignment : List Token → Except String (ASTNode × List Token)
  | [] => .error "IndexError"
  | _ :: [] => .error "IndexError"
  | t :: _eq :: ts1 =>
    match parseExpression ts1 with
    | .error m => .error m
    | .ok (v, ts2) => .ok (.AssignmentNode t.value v, ts2)

mutual

/-- `Parser.parse_statement`: skip leading NEWLINEs, dispatch on the
current token (Identifier followed by `=` text: assignment; keyword
`if`: conditional; otherwise bare expression), consuming one optional
trailing NEWLINE for assignment and expression statements. -/
def parseStatement : Nat → List Token → Except String (ASTNode × List Token)
  | 0, _ => .error "OutOfFuel"
  | fuel + 1, ts0 =>
    match skipNewlines ts0 with
    | [] => .error "IndexError"
    | t :: rest =>
      if t.type = .IDENTIFIER ∧ peekNextValue (t :: rest) = "=" then
        match parseAssignment (t :: rest) with
        | .error m => .error m
        | .ok (node, ts1) => .ok (node, consumeNewline ts1)
      else if t.type = .KEYWORD ∧ t.value = "if" then
        parseIfStatement fuel (t :: rest)
      else
        match parseExpression (t :: rest) with
        | .error m => .error m
        | .ok (node, ts1) => .ok (node, consumeNewline ts1)

/-- `Parser.parse_if_statement`: consume `if` unconditionally, parse the
condition, consume an optional NEWLINE, require an INDENT (error
otherwise), consume it, then accumulate body statements. -/
def parseIfStatement : Nat → List Token → Except String (ASTNode × List Token)
  | 0, _ => .error "OutOfFuel"
  | fuel + 1, ts =>
    match parseExpression ts.tail with
    | .error m => .error m
    | .ok (cond, ts2) =>
      let ts3 := consumeNewline ts2
      if check .INDENT ts3 then
        match parseIfBody fuel [] ts3.tail with
        | .error m => .error m
        | .ok (body, ts4) => .ok (.IfNode cond body, ts4)
      else .error "Expected indented block after if statement"

/-- The body loop of `Parser.parse_if_statement`: accumulate statements
while the current token is neither DEDENT nor EOF; afterwards consume
the closing DEDENT only if input remains. -/
def parseIfBody : Nat → List ASTNode → List Token → Except String (List ASTNode × List Token)
  | 0, _, _ => .error "OutOfFuel"
  | fuel + 1, acc, ts =>
    if check .DEDENT ts = false ∧ isAtEnd ts = false then
      match parseStatement fuel ts with
      | .error m => .error m
      | .ok (node, ts1) => parseIfBody fuel (acc ++ [node]) ts1
    else
      if isAtEnd ts then .ok (acc, ts)
      else .ok (acc, consumeDedent ts)

end

/-- The `Parser.parse` top-level loop. -/
def parseProgram : Nat → List Token → Except String (List ASTNode)
  | 0, _ => .error "OutOfFuel"
  | fuel + 1, ts =>
    if isAtEnd ts then .ok []
    else
      match parseStatement fuel ts with
      | .error m => .error m
      | .ok (node, ts1) =>
        match parseProgram fuel ts1 with
        | .error m => .error m
        | .ok nodes => .ok (node :: nodes)

/-- `Parser.parse`: every statement consumes at least one token and
each nesting level costs at most three fuel units, so this fuel bound
suffices for the loop never to run dry. -/
def parse (ts : List Token) : Except String (List ASTNode) :=
  parseProgram (3 * ts.length + 3) ts

/-! ## Code generator (class X86CodeGenerator, src/x86_code_generator.py)

The generator's mutable instance state (variable table, next offset,
label counter, output buffer) is threaded explicitly.  The Python dict
`variables` is an association list; keys are appended at most once, so
first-match lookup agrees with dict lookup.  The recursion over the AST
is fuel-indexed (structural on the fuel); `generate` supplies fuel that
provably suffices. -/

structure GenState where
  var_table : List (String × Nat)
  next_var_offset : Nat
  label_counter : Nat
  output : List String
deriving DecidableEq, Repr

/-- Python dict lookup `node.name in self.var_table` /
`self.var_table[node.name]` on the association list. -/
def lookupVar : List (String × Nat) → String → Option Nat
  | [], _ => none
  | (k, v) :: rest, name => if k = name then some v else lookupVar rest name

/-- `X86CodeGenerator.emit`. -/
def emit (st : GenState) (ins : String) : GenState :=
  { st with output := st.output ++ [ins] }

/-- A sequence of `emit` calls. -/
def emits (st : GenState) (l : List String) : GenState :=
  { st with output := st.output ++ l }

/-- The operator dispatch of `X86CodeGenerator.generate_binary_op`,
emitted after `pop ebx`: the if/elif chain over the operator text.  An
operator matching no branch emits nothing (the Python code falls
through silently). -/
def binOpInstrs (op : String) : List String :=
  if op = "+" then ["add eax, ebx"]
  else if op = "-" then ["sub eax, ebx"]
  else if op = "*" then ["imul eax, ebx"]
  else if op = "/" then ["cdq", "idiv ebx"]
  else if op ∈ cmpOps then
    ["cmp eax, ebx"] ++
    (if op = "<" then ["setl al"]
     else if op = ">" then ["setg al"]
     else if op = "<=" then ["setle al"]
     else if op = ">=" then ["setge al"]
     else if op = "==" then ["sete al"]
     else if op = "!=" then ["setne al"]
     else []) ++
    ["movzx eax, al"]
  else []

mutual

/-- `X86CodeGenerator.generate_node` (with `generate_binary_op`,
`generate_assignment` and `generate_if_statement` inlined at their
single call sites). -/
def genNode : GenState → ASTNode → Except String GenState
  | st, .NumberNode v => .ok (emit st ("mov eax, " ++ toString v))
  | st, .BinaryOpNode l op r =>
    -- generate_binary_op: right operand first, push, left, pop, combine
    match genNode st r with
    | .error m => .error m
    | .ok st1 =>
      let st2 := emit st1 "push eax"
      match genNode st2 l with
      | .error m => .error m
      | .ok st3 => .ok (emits (emit st3 "pop ebx") (binOpInstrs op))
  | st, .VariableNode name =>
    match lookupVar st.var_table name with
    | some off => .ok (emit st ("mov eax, [ebp-" ++ toString off ++ "]"))
    | none => .error ("Undefined variable: " ++ name)
  | st, .AssignmentNode name v =>
    -- generate_assignment: value first, then allocate on first sight
    match genNode st v with
    | .error m => .error m
    | .ok st1 =>
      match lookupVar st1.var_table name with
      | some off => .ok (emit st1 ("mov [ebp-" ++ toString off ++ "], eax"))
      | none =>
        let off := st1.next_var_offset
        let st2 := { st1 with
          var_table := st1.var_table ++ [(name, off)],
          next_var_offset := st1.next_var_offset + 4 }
        .ok (emit st2 ("mov [ebp-" ++ toString off ++ "], eax"))
  | st, .IfNode cond body =>
    -- generate_if_statement: mint the label first, then the condition
    let label := "L" ++ toString st.label_counter
    let st0 := { st with label_counter := st.label_counter + 1 }
    match genNode st0 cond with
    | .error m => .error m
    | .ok st1 =>
      let st2 := emit (emit st1 "test eax, eax") ("jz " ++ label)
      match genNodes st2 body with
      | .error m => .error m
      | .ok st3 => .ok (emit st3 (label ++ ":"))

/-- The statement loop inside `generate_if_statement` (and the per-node
loop of `X86CodeGenerator.generate`). -/
def genNodes : GenState → List ASTNode → Except String GenState
  | st, [] => .ok st
  | st, n :: rest =>
    match genNode st n with
    | .error m => .error m
    | .ok st1 => genNodes st1 rest

end

/-- The fixed prologue emitted by `X86CodeGenerator.generate`. -/
def prologueLines : List String :=
  ["global _start", "section .text", "_start:", "push ebp", "mov ebp, esp"]

/-- The fixed epilogue emitted by `X86CodeGenerator.generate`. -/
def epilogueLines : List String :=
  ["mov esp, ebp", "pop ebp", "mov eax, 1", "xor ebx, ebx", "int 0x80"]

/-- The fresh generator state of `X86CodeGenerator.__init__`. -/
def genInit : GenState :=
  { var_table := [], next_var_offset := 4, label_counter := 0, output := [] }

/-- `X86CodeGenerator.generate` on a fresh generator: prologue, the
statements, epilogue, newline-joined. -/
def generate (nodes : List ASTNode) : Except String String :=
  match genNodes (emits genInit prologueLines) nodes with
  | .error m => .error m
  | .ok st => .ok (String.intercalate "\n" (st.output ++ epilogueLines))

/-- `compile_python_to_asm` from src/test_compiler.py: the full
pipeline. -/
def compile_python_to_asm (source_code : String) : Except String String :=
  match parse (tokenize source_code) with
  | .error m => .error m
  | .ok ast => generate ast

/-! ## Auxiliary definitions used by the claim statements -/

/-- The lexeme shape a token of each kind produced by `tokenize` has:
NUMBER tokens carry a nonempty digit run, IDENTIFIER/KEYWORD tokens a
nonempty identifier run, OPERATOR tokens exactly one operator character,
NEWLINE tokens the string "\n", INDENT tokens a nonempty run of spaces,
DEDENT and EOF tokens the empty string. -/
def tokenShape (t : Token) : Prop :=
  match t.type with
  | .NUMBER => t.value.toList ≠ [] ∧ ∀ c ∈ t.value.toList, pyIsDigit c
  | .IDENTIFIER => t.value.toList ≠ [] ∧ ∀ c ∈ t.value.toList, isIdentChar c
  | .KEYWORD => t.value.toList ≠ [] ∧ ∀ c ∈ t.value.toList, isIdentChar c
  | .OPERATOR => ∃ c, isOpChar c = true ∧ t.value = ⟨[c]⟩
  | .NEWLINE => t.value = "\n"
  | .INDENT => ∃ n, 0 < n ∧ t.value = spacesStr n
  | .DEDENT => t.value = ""
  | .EOF => t.value = ""

/-- The number of tokens of a given type in a token sequence. -/
def countType (ty : TokenType) (ts : List Token) : Nat :=
  (ts.filter (fun t => t.type = ty)).length

/-- Whether a token is one of the synthetic block-structure tokens. -/
def isStructuralTok (t : Token) : Bool :=
  t.type = .INDENT || t.type = .DEDENT

/-- The subsequence of INDENT and DEDENT tokens of a token sequence. -/
def filterID (ts : List Token) : List Token :=
  ts.filter isStructuralTok

/-- The indentation width of a run of spaces and tabs: a space
contributes 1 and a tab contributes 4, as in `handle_indentation`. -/
def blankWidth : List Char → Nat
  | [] => 0
  | c :: cs => (if c = ' ' then 1 else 4) + blankWidth cs

/-- The tokens `handle_indentation` emits, as a function of the measured
width, the current line and the indentation stack. -/
def hiTokens (w ln : Nat) (stack : List Nat) : List Token :=
  match stack with
  | [] => []
  | top :: _ =>
    if w > top then [Token.mk .INDENT (spacesStr w) ln 1]
    else (popDedents w ln stack).1

/-- The indentation stack `handle_indentation` leaves behind, as a
function of the measured width, the current line and the previous
stack. -/
def hiStack (w ln : Nat) (stack : List Nat) : List Nat :=
  match stack with
  | [] => stack
  | top :: _ =>
    if w > top then w :: stack
    else (popDedents w ln stack).2

/-- Two source fragments that differ only in one tab versus four spaces
inside a run of leading indentation (the run `w1` before the differing
position consists of spaces/tabs only). -/
def TabRel (u v : List Char) : Prop :=
  ∃ w1 w2, (∀ c ∈ w1, isBlank c = true) ∧
    u = w1 ++ '\t' :: w2 ∧ v = w1 ++ (List.replicate 4 ' ' ++ w2)

mutual

/-- All BinaryOp operator texts occurring anywhere in an AST node. -/
def astOps : ASTNode → List String
  | .NumberNode _ => []
  | .BinaryOpNode l op r => astOps l ++ op :: astOps r
  | .VariableNode _ => []
  | .AssignmentNode _ v => astOps v
  | .IfNode cond body => astOps cond ++ astOpsList body

/-- All BinaryOp operator texts occurring anywhere in a statement
sequence. -/
def astOpsList : List ASTNode → List String
  | [] => []
  | n :: rest => astOps n ++ astOpsList rest

end

/-! ## The spec's precedence grammar (section 4.2 of the spec)

These relations are written from the SPEC's description of well-formed
expressions and their precedence-correct shapes — "comparison > additive
> multiplicative > primary, lowest-to-highest binding as listed,
left-associative at each level" — not from the parser code.  `PrecX ts e`
states that the token sequence `ts` is a well-formed expression at level
X whose precedence-correct abstract syntax tree is `e`.  Operand tokens
are NUMBER or IDENTIFIER tokens, operator tokens are OPERATOR tokens
bearing the operator text. -/

/-- A primary expression: one NUMBER or one IDENTIFIER token. -/
inductive PrecPrimary : List Token → ASTNode → Prop
  | num (t : Token) (h : t.type = .NUMBER) :
      PrecPrimary [t] (.NumberNode (strToNat t.value))
  | var (t : Token) (h : t.type = .IDENTIFIER) :
      PrecPrimary [t] (.VariableNode t.value)

/-- The left-associative continuation of a multiplicative level: given
the expression built so far, a (possibly empty) sequence of
`op primary` pairs with op in {*, /}, folded left-associatively. -/
inductive PrecFactorTail : ASTNode → List Token → ASTNode → Prop
  | nil (e : ASTNode) : PrecFactorTail e [] e
  | cons (e : ASTNode) (t : Token) (p ts : List Token) (e1 e2 : ASTNode)
      (hty : t.type = .OPERATOR) (hv : t.value ∈ mulOps)
      (hp : PrecPrimary p e1)
      (ht : PrecFactorTail (.BinaryOpNode e t.value e1) ts e2) :
      PrecFactorTail e (t :: (p ++ ts)) e2

/-- A multiplicative-level expression: `primary (("*"|"/") primary)*`,
left-associative. -/
inductive PrecFactor : List Token → ASTNode → Prop
  | mk (p ts : List Token) (e0 e : ASTNode)
      (hp : PrecPrimary p e0) (ht : PrecFactorTail e0 ts e) :
      PrecFactor (p ++ ts) e

/-- The left-associative continuation of an additive level. -/
inductive PrecTermTail : ASTNode → List Token → ASTNode → Prop
  | nil (e : ASTNode) : PrecTermTail e [] e
  | cons (e : ASTNode) (t : Token) (f ts : List Token) (e1 e2 : ASTNode)
      (hty : t.type = .OPERATOR) (hv : t.value ∈ addOps)
      (hf : PrecFactor f e1)
      (ht : PrecTermTail (.BinaryOpNode e t.value e1) ts e2) :
      PrecTermTail e (t :: (f ++ ts)) e2

/-- An additive-level expression: `factor (("+"|"-") factor)*`,
left-associative. -/
inductive PrecTerm : List Token → ASTNode → Prop
  | mk (f ts : List Token) (e0 e : ASTNode)
      (hf : PrecFactor f e0) (ht : PrecTermTail e0 ts e) :
      PrecTerm (f ++ ts) e

/-- The left-associative continuation of the comparison level. -/
inductive PrecCmpTail : ASTNode → List Token → ASTNode → Prop
  | nil (e : ASTNode) : PrecCmpTail e [] e
  | cons (e : ASTNode) (t : Token) (f ts : List Token) (e1 e2 : ASTNode)
      (hty : t.type = .OPERATOR) (hv : t.value ∈ cmpOps)
      (hf : PrecTerm f e1)
      (ht : PrecCmpTail (.BinaryOpNode e t.value e1) ts e2) :
      PrecCmpTail e (t :: (f ++ ts)) e2

/-- A full well-formed expression:
`term (cmpOp term)*`, left-associative. -/
inductive PrecExpr : List Token → ASTNode → Prop
  | mk (f ts : List Token) (e0 e : ASTNode)
      (hf : PrecTerm f e0) (ht : PrecCmpTail e0 ts e) :
      PrecExpr (f ++ ts) e

/-! ## Theorems -/

/-- Claim C1: for the source string "x = 5\n", the full pipeline
(tokenize, parse, generate on a fresh generator) produces an assembly
string that contains, in order after the prologue, the line
`mov eax, 5` followed by the line `mov [ebp-4], eax`.  Proved in the
strongest form: the output is exactly the five prologue lines, then
those two lines, then the five epilogue lines. -/
theorem claim_C1 :
    compile_python_to_asm "x = 5\n" =
      .ok ("global _start\nsection .text\n_start:\npush ebp\nmov ebp, esp\n" ++
           "mov eax, 5\nmov [ebp-4], eax\n" ++
           "mov esp, ebp\npop ebp\nmov eax, 1\nxor ebx, ebx\nint 0x80") := by
  rfl

/-! ### Lexeme shapes of lexer output (used by C4, C5, C8) -/

theorem popDedents_mem (w ln : Nat) (s : List Nat) :
    ∀ t ∈ (popDedents w ln s).1, t = Token.mk .DEDENT "" ln 1 := by
  induction s with
  | nil => simp [popDedents]
  | cons a s ih =>
    simp only [popDedents]
    split
    · intro t ht
      rcases List.mem_cons.mp ht with h | h
      · exact h
      · exact ih t h
    · simp

theorem handleIndentation_shape (st : LexState) :
    ∀ t ∈ (handleIndentation st).1, tokenShape t := by
  intro t ht
  unfold handleIndentation at ht
  rcases hst : st.indentStack with _ | ⟨top, rest⟩ <;> rw [hst] at ht
  · simp at ht
  · dsimp at ht
    split at ht
    · rcases List.mem_singleton.mp ht with rfl
      exact ⟨(scanIndent st.src).1, by omega, rfl⟩
    · have := popDedents_mem (scanIndent st.src).1 st.line
        (top :: rest) t ht
      subst this
      rfl

theorem lexStep_shape (st : LexState) (c : Char) (cs : List Char)
    (hsrc : st.src = c :: cs) :
    ∀ t ∈ (lexStep st c cs).1, tokenShape t := by
  intro t ht
  unfold lexStep at ht
  split at ht
  · -- whitespace
    split at ht
    · rcases List.mem_cons.mp ht with rfl | h
      · rfl
      · exact handleIndentation_shape _ t h
    · simp at ht
  · split at ht
    · -- comment
      simp at ht
    · split at ht
      · -- number
        next hdig =>
        rcases List.mem_singleton.mp ht with rfl
        refine ⟨?_, ?_⟩
        · rw [hsrc, List.takeWhile_cons, if_pos hdig]
          simp
        · intro x hx
          exact List.mem_takeWhile_imp hx
      · split at ht
        · -- identifier or keyword
          next halpha =>
          have hic : isIdentChar c = true := by
            simp only [isIdentChar, pyIsAlnum]
            rcases Bool.or_eq_true_iff.mp halpha with h | h
            · simp [h]
            · simp [h]
          rcases List.mem_singleton.mp ht with rfl
          have hval : (st.src.takeWhile isIdentChar) = c :: cs.takeWhile isIdentChar := by
            rw [hsrc, List.takeWhile_cons, if_pos hic]
          split <;>
            exact ⟨by simp [hval], fun x hx => List.mem_takeWhile_imp hx⟩
        · split at ht
          · -- operator
            next hop =>
            rcases List.mem_singleton.mp ht with rfl
            exact ⟨c, hop, rfl⟩
          · -- skipped character
            simp at ht

theorem tokenizeLoop_shape (fuel : Nat) :
    ∀ st, ∀ t ∈ (tokenizeLoop fuel st).1, tokenShape t := by
  induction fuel with
  | zero => intro st t ht; simp [tokenizeLoop] at ht
  | succ n ih =>
    intro st t ht
    rw [tokenizeLoop] at ht
    rcases hsrc : st.src with _ | ⟨c, cs⟩ <;> rw [hsrc] at ht
    · simp at ht
    · dsimp at ht
      rcases List.mem_append.mp ht with h | h
      · exact lexStep_shape st c cs hsrc t h
      · exact ih _ t h

/-- Every token produced by `tokenize` has the lexeme shape dictated by
its kind. -/
theorem tokenize_shape (s : String) : ∀ t ∈ tokenize s, tokenShape t := by
  intro t ht
  unfold tokenize at ht
  rcases List.mem_append.mp ht with h | h
  · exact tokenizeLoop_shape _ _ t h
  · rcases List.mem_singleton.mp h with rfl
    rfl

/-- No token produced by the lexer carries one of the two-character
comparison operators as its text. -/
theorem tokenShape_not_twochar (t : Token) (h : tokenShape t) :
    t.value ∉ (["<=", ">=", "==", "!="] : List String) := by
  intro hmem
  rcases t with ⟨ty, v, ln, col⟩
  have hv : v = "<=" ∨ v = ">=" ∨ v = "==" ∨ v = "!=" := by
    simpa using hmem
  have heq : '=' ∈ v.toList := by
    rcases hv with rfl | rfl | rfl | rfl <;> decide
  cases ty <;> simp only [tokenShape] at h
  · -- NUMBER
    exact absurd (h.2 '=' heq) (by decide)
  · -- IDENTIFIER
    exact absurd (h.2 '=' heq) (by decide)
  · -- OPERATOR
    rcases h with ⟨c, -, rfl⟩
    rcases hv with hv | hv | hv | hv <;>
      exact absurd (congrArg (fun s => s.toList.length) hv : (1 : Nat) = 2)
        (by decide)
  · -- KEYWORD
    exact absurd (h.2 '=' heq) (by decide)
  · -- INDENT
    rcases h with ⟨n, -, rfl⟩
    have heq2 : '=' ∈ List.replicate n ' ' := heq
    exact absurd (List.eq_of_mem_replicate heq2) (by decide)
  · -- DEDENT
    subst h
    exact absurd heq (by decide)
  · -- NEWLINE
    subst h
    exact absurd heq (by decide)
  · -- EOF
    subst h
    exact absurd heq (by decide)

/-- Claim C4: every Operator token produced by the lexer carries exactly
one character drawn from `+ - * \x2f < > =`; no token of the lexer ever
carries `<=`, `>=`, `==` or `!=` as its text, and lexing a source with
`<=` yields two adjacent one-character Operator tokens. -/
theorem claim_C4 :
    (∀ (s : String) (t : Token), t ∈ tokenize s → t.type = .OPERATOR →
        ∃ c, isOpChar c = true ∧ t.value = ⟨[c]⟩) ∧
    (∀ (s : String) (t : Token), t ∈ tokenize s →
        t.value ∉ (["<=", ">=", "==", "!="] : List String)) ∧
    tokenize "a <= b" =
      [Token.mk .IDENTIFIER "a" 1 1, Token.mk .OPERATOR "<" 1 3,
       Token.mk .OPERATOR "=" 1 4, Token.mk .IDENTIFIER "b" 1 6,
       Token.mk .EOF "" 1 7] := by
  refine ⟨?_, ?_, by rfl⟩
  · intro s t ht hop
    have := tokenize_shape s t ht
    rcases t with ⟨ty, v, ln, col⟩
    cases hop
    exact this
  · intro s t ht
    exact tokenShape_not_twochar t (tokenize_shape s t ht)

/-- Witness for C4 at a concrete input: the first Operator token of
`"a <= b"` is the single character `<`. -/
theorem claim_C4_witness :
    ∃ c, isOpChar c = true ∧ (Token.mk .OPERATOR "<" 1 3).value = ⟨[c]⟩ :=
  claim_C4.1 "a <= b" (Token.mk .OPERATOR "<" 1 3) (by decide) rfl

/-- Counterexample to claim C8 as stated: tokenizing "x\n 1" produces an
Indent token whose text is " " (one space), not the empty string. -/
theorem claim_C8_cex :
    ∃ t ∈ tokenize "x\n 1", t.type = .INDENT ∧ t.value ≠ "" := by
  decide

/-- Claim C8, amended: Dedent and EndOfInput tokens carry empty text,
but Indent tokens carry a nonempty run of `indent_level` spaces. -/
theorem claim_C8 :
    ∀ (s : String) (t : Token), t ∈ tokenize s →
      ((t.type = .DEDENT ∨ t.type = .EOF) → t.value = "") ∧
      (t.type = .INDENT → ∃ n, 0 < n ∧ t.value = spacesStr n) := by
  intro s t ht
  have hs := tokenize_shape s t ht
  rcases t with ⟨ty, v, ln, col⟩
  constructor
  · rintro (h | h) <;> cases h <;> exact hs
  · intro h
    cases h
    exact hs

/-- Witness for C8 at a concrete input: the Indent token of "x\n 1"
carries a nonempty run of spaces. -/
theorem claim_C8_witness :
    ∃ n, 0 < n ∧ (Token.mk .INDENT " " 2 1).value = spacesStr n :=
  (claim_C8 "x\n 1" (Token.mk .INDENT " " 2 1) (by decide)).2 rfl

/-! ### Totality of the lexer scan and indentation accounting (C10) -/

theorem dropWhile_length_le (p : Char → Bool) (l : List Char) :
    (l.dropWhile p).length ≤ l.length := by
  induction l with
  | nil => simp
  | cons c cs ih =>
    rw [List.dropWhile_cons]
    split
    · exact Nat.le_succ_of_le ih
    · exact Nat.le_refl _

theorem scanIndent_rest_le (l : List Char) :
    (scanIndent l).2.2.length ≤ l.length := by
  induction l with
  | nil => simp [scanIndent]
  | cons c cs ih =>
    simp only [scanIndent]
    split
    · exact Nat.le_succ_of_le ih
    · split
      · exact Nat.le_succ_of_le ih
      · simp

/-- Every iteration of the scan loop consumes at least the current
character. -/
theorem lexStep_src_le (st : LexState) (c : Char) (cs : List Char)
    (hsrc : st.src = c :: cs) :
    (lexStep st c cs).2.src.length ≤ cs.length := by
  unfold lexStep
  split
  · split
    · -- newline, then indentation scan over the remainder
      simp only [handleIndentation]
      split
      · simpa using scanIndent_rest_le cs
      · split <;> simpa using scanIndent_rest_le cs
    · simp
  · split
    · -- comment
      next hhash =>
      subst hhash
      rw [hsrc]
      simpa [List.dropWhile_cons] using
        dropWhile_length_le (fun x => !decide (x = '\n')) cs
    · split
      · -- number
        next hdig =>
        rw [hsrc]
        simpa [List.dropWhile_cons, hdig] using dropWhile_length_le pyIsDigit cs
      · split
        · -- identifier
          next halpha =>
          have hic : isIdentChar c = true := by
            simp only [isIdentChar, pyIsAlnum]
            rcases Bool.or_eq_true_iff.mp halpha with h | h
            · simp [h]
            · simp [h]
          rw [hsrc]
          simpa [List.dropWhile_cons, hic] using
            dropWhile_length_le isIdentChar cs
        · split
          · simp
          · simp

/-- With fuel exceeding the remaining source length, the scan loop
consumes the entire source. -/
theorem tokenizeLoop_src_done (fuel : Nat) :
    ∀ st : LexState, st.src.length < fuel → (tokenizeLoop fuel st).2.src = [] := by
  induction fuel with
  | zero => intro st h; omega
  | succ n ih =>
    intro st h
    rw [tokenizeLoop]
    rcases hsrc : st.src with _ | ⟨c, cs⟩
    · exact hsrc
    · dsimp only
      apply ih
      have := lexStep_src_le st c cs hsrc
      rw [hsrc] at h
      simp at h
      omega

theorem countType_append (ty : TokenType) (a b : List Token) :
    countType ty (a ++ b) = countType ty a + countType ty b := by
  simp [countType, List.filter_append]

theorem countType_all_eq (ty : TokenType) (l : List Token)
    (h : ∀ t ∈ l, t.type = ty) : countType ty l = l.length := by
  unfold countType
  rw [List.filter_eq_self.mpr]
  intro a ha
  simp [h a ha]

theorem countType_none_eq (ty : TokenType) (l : List Token)
    (h : ∀ t ∈ l, t.type ≠ ty) : countType ty l = 0 := by
  unfold countType
  rw [List.length_eq_zero]
  rw [List.filter_eq_nil_iff]
  intro a ha
  simp [h a ha]

theorem countType_cons (ty : TokenType) (t : Token) (l : List Token) :
    countType ty (t :: l) = (if t.type = ty then 1 else 0) + countType ty l := by
  by_cases h : t.type = ty
  · simp [countType, List.filter_cons, h]
    omega
  · simp [countType, List.filter_cons, h]

theorem popDedents_sizes (w ln : Nat) (s : List Nat) :
    (popDedents w ln s).2.length + (popDedents w ln s).1.length = s.length := by
  induction s with
  | nil => simp [popDedents]
  | cons a s ih =>
    simp only [popDedents]
    split
    · simp only [List.length_cons]
      omega
    · simp

/-- One indentation-measurement step preserves the accounting identity:
stack growth is matched by INDENT tokens and stack shrinkage by DEDENT
tokens. -/
theorem handleIndentation_count (st : LexState) :
    (handleIndentation st).2.indentStack.length
        + countType .DEDENT (handleIndentation st).1
      = st.indentStack.length + countType .INDENT (handleIndentation st).1 := by
  unfold handleIndentation
  dsimp only
  rcases hst : st.indentStack with _ | ⟨top, rest⟩
  · simp [countType]
  · dsimp only
    split
    · simp [countType]
    · have hmem := popDedents_mem (scanIndent st.src).1 st.line (top :: rest)
      have hsz := popDedents_sizes (scanIndent st.src).1 st.line (top :: rest)
      have hD : countType .DEDENT
            (popDedents (scanIndent st.src).1 st.line (top :: rest)).1
          = (popDedents (scanIndent st.src).1 st.line (top :: rest)).1.length :=
        countType_all_eq _ _ (fun t ht => by rw [hmem t ht])
      have hI : countType .INDENT
            (popDedents (scanIndent st.src).1 st.line (top :: rest)).1 = 0 :=
        countType_none_eq _ _ (fun t ht => by rw [hmem t ht]; simp)
      rw [hD, hI]
      simp only [List.length_cons] at hsz ⊢
      omega

theorem lexStep_count (st : LexState) (c : Char) (cs : List Char) :
    (lexStep st c cs).2.indentStack.length
        + countType .DEDENT (lexStep st c cs).1
      = st.indentStack.length + countType .INDENT (lexStep st c cs).1 := by
  unfold lexStep
  split
  · split
    · -- newline: NEWLINE token contributes nothing, indentation step accounts
      have h := handleIndentation_count
        { st with src := cs, line := st.line + 1, column := 1 }
      dsimp only
      rw [countType_cons, countType_cons]
      simp only [show (Token.mk .NEWLINE "\n" st.line st.column).type
          = TokenType.NEWLINE from rfl]
      rw [if_neg (by decide), if_neg (by decide)]
      dsimp only at h
      omega
    · simp [countType]
  · split
    · -- comment
      simp [countType]
    · split
      · -- number
        simp [countType]
      · split
        · -- identifier or keyword
          dsimp only
          split <;> simp [countType]
        · split
          · -- operator
            simp [countType]
          · -- skipped character
            simp [countType]

theorem tokenizeLoop_count (fuel : Nat) :
    ∀ st : LexState,
      (tokenizeLoop fuel st).2.indentStack.length
          + countType .DEDENT (tokenizeLoop fuel st).1
        = st.indentStack.length + countType .INDENT (tokenizeLoop fuel st).1 := by
  induction fuel with
  | zero => intro st; simp [tokenizeLoop, countType]
  | succ n ih =>
    intro st
    rw [tokenizeLoop]
    rcases hsrc : st.src with _ | ⟨c, cs⟩
    · simp [countType]
    · dsimp only
      have h1 := lexStep_count st c cs
      have h2 := ih (lexStep st c cs).2
      rw [countType_append, countType_append]
      omega

/-- Claim C10: `tokenize` is total — the scan loop consumes the whole
source (never failing, unrecognized characters being skipped without a
token) — and the resulting finite sequence ends in an EndOfInput token;
the emitted DEDENT tokens account exactly for the stack pops performed
during the scan (final stack height + DEDENTs = 1 + INDENTs), so no
DEDENTs are flushed for indentation levels still open at end of input,
as the concrete source "if x:\n    y" (one INDENT, zero DEDENTs, open
level at EOF) exhibits. -/
theorem claim_C10 :
    (∀ s : String,
        (tokenizeLoop (s.toList.length + 1) (lexInit s)).2.src = [] ∧
        (tokenize s).getLast? =
          some (Token.mk .EOF ""
            (tokenizeLoop (s.toList.length + 1) (lexInit s)).2.line
            (tokenizeLoop (s.toList.length + 1) (lexInit s)).2.column) ∧
        (tokenizeLoop (s.toList.length + 1) (lexInit s)).2.indentStack.length
            + countType .DEDENT (tokenize s)
          = 1 + countType .INDENT (tokenize s)) ∧
    tokenize "@ $ ~" = [Token.mk .EOF "" 1 6] ∧
    countType .INDENT (tokenize "if x:\n    y") = 1 ∧
    countType .DEDENT (tokenize "if x:\n    y") = 0 := by
  refine ⟨fun s => ⟨?_, ?_, ?_⟩, by rfl, by rfl, by rfl⟩
  · exact tokenizeLoop_src_done _ _ (Nat.lt_succ_self _)
  · exact List.getLast?_concat _
  · have := tokenizeLoop_count (s.toList.length + 1) (lexInit s)
    unfold tokenize
    rw [countType_append, countType_append]
    have hE : ∀ ty, ty ≠ TokenType.EOF →
        countType ty [Token.mk .EOF ""
          (tokenizeLoop (s.toList.length + 1) (lexInit s)).2.line
          (tokenizeLoop (s.toList.length + 1) (lexInit s)).2.column] = 0 := by
      intro ty hty
      apply countType_none_eq
      intro t ht
      rcases List.mem_singleton.mp ht with rfl
      simpa using fun h => hty h.symm
    rw [hE _ (by decide), hE _ (by decide)]
    simpa [lexInit] using this

/-! ### Code generator structure (C3, C6) -/

theorem lookupVar_append_some (l l2 : List (String × Nat)) (v : String) (o : Nat)
    (h : lookupVar l v = some o) : lookupVar (l ++ l2) v = some o := by
  induction l with
  | nil => simp [lookupVar] at h
  | cons p rest ih =>
    rcases p with ⟨k, x⟩
    simp only [lookupVar, List.cons_append] at h ⊢
    split at h
    · next hk => rw [if_pos hk]; exact h
    · next hk => rw [if_neg hk]; exact ih h

/-- The generator state is append-only in its output and monotone in its
variable table: generating any node only appends instructions and only
adds table entries. -/
theorem gen_append_mono :
    (∀ (st : GenState) (n : ASTNode) (st' : GenState), genNode st n = .ok st' →
        (∃ d, st'.output = st.output ++ d) ∧
        (∀ v o, lookupVar st.var_table v = some o →
            lookupVar st'.var_table v = some o)) ∧
    (∀ (st : GenState) (l : List ASTNode) (st' : GenState), genNodes st l = .ok st' →
        (∃ d, st'.output = st.output ++ d) ∧
        (∀ v o, lookupVar st.var_table v = some o →
            lookupVar st'.var_table v = some o)) := by
  refine genNode.mutual_induct
    (motive_1 := fun st n => ∀ st', genNode st n = .ok st' →
        (∃ d, st'.output = st.output ++ d) ∧
        (∀ v o, lookupVar st.var_table v = some o →
            lookupVar st'.var_table v = some o))
    (motive_2 := fun st l => ∀ st', genNodes st l = .ok st' →
        (∃ d, st'.output = st.output ++ d) ∧
        (∀ v o, lookupVar st.var_table v = some o →
            lookupVar st'.var_table v = some o))
    ?_ ?_ ?_ ?_ ?_ ?_ ?_ ?_ ?_ ?_ ?_ ?_ ?_ ?_ ?_
  · -- NumberNode
    intro st v st' h
    rw [genNode] at h
    cases h
    exact ⟨⟨_, rfl⟩, fun _ _ hl => hl⟩
  · -- BinaryOpNode, right errors
    intro st l op r m hr _ st' h
    rw [genNode, hr] at h
    cases h
  · -- BinaryOpNode, left errors
    intro st l op r st3 hr st2 m hl _ _ st' h
    rw [genNode, hr] at h
    simp only [hl] at h
    cases h
  · -- BinaryOpNode, both succeed
    intro st l op r st3 hr st2 st4 hl ihr ihl st' h
    rw [genNode, hr] at h
    simp only [hl] at h
    cases h
    obtain ⟨⟨dr, hdr⟩, hmr⟩ := ihr st3 hr
    obtain ⟨⟨dl, hdl⟩, hml⟩ := ihl st4 hl
    constructor
    · refine ⟨dr ++ ["push eax"] ++ dl ++ "pop ebx" :: binOpInstrs op, ?_⟩
      simp only [emits, emit, st2] at hdl ⊢
      rw [hdl, hdr]
      simp
    · intro v o hv
      exact hml v o (hmr v o hv)
  · -- VariableNode, defined
    intro st name off hoff st' h
    rw [genNode, hoff] at h
    cases h
    exact ⟨⟨_, rfl⟩, fun _ _ hl => hl⟩
  · -- VariableNode, undefined
    intro st name hnone st' h
    rw [genNode, hnone] at h
    cases h
  · -- AssignmentNode, value errors
    intro st name v m hv _ st' h
    rw [genNode, hv] at h
    cases h
  · -- AssignmentNode, existing variable
    intro st name v st3 hv off hoff ihv st' h
    rw [genNode, hv] at h
    simp only [hoff] at h
    cases h
    obtain ⟨⟨dv, hdv⟩, hmv⟩ := ihv st3 hv
    refine ⟨⟨dv ++ ["mov [ebp-" ++ toString off ++ "], eax"], ?_⟩, ?_⟩
    · simp only [emit, hdv]
      simp
    · exact fun a b hl => hmv a b hl
  · -- AssignmentNode, fresh variable
    intro st name v st3 hv hnone ihv st' h
    rw [genNode, hv] at h
    simp only [hnone] at h
    cases h
    obtain ⟨⟨dv, hdv⟩, hmv⟩ := ihv st3 hv
    refine ⟨⟨dv ++ ["mov [ebp-" ++ toString st3.next_var_offset ++ "], eax"], ?_⟩, ?_⟩
    · simp only [emit, hdv]
      simp
    · intro a b hl
      exact lookupVar_append_some _ _ _ _ (hmv a b hl)
  · -- IfNode, condition errors
    intro st cond body st0 m hc _ st' h
    rw [genNode] at h
    simp only [hc] at h
    cases h
  · -- IfNode, body errors
    intro st cond body label st0 st3 hc st2 m hb _ _ st' h
    rw [genNode] at h
    simp only [hc, hb] at h
    cases h
  · -- IfNode, both succeed
    intro st cond body label st0 st3 hc st2 st4 hb ihc ihb st' h
    rw [genNode] at h
    simp only [hc, hb] at h
    cases h
    obtain ⟨⟨dc, hdc⟩, hmc⟩ := ihc st3 hc
    obtain ⟨⟨db, hdb⟩, hmb⟩ := ihb st4 hb
    constructor
    · refine ⟨dc ++ ["test eax, eax", "jz " ++ label] ++ db ++ [label ++ ":"], ?_⟩
      simp only [emit, st2, st0] at hdb hdc ⊢
      rw [hdb, hdc]
      simp
    · intro a b hl
      exact hmb a b (hmc a b hl)
  · -- genNodes nil
    intro st st' h
    rw [genNodes] at h
    cases h
    exact ⟨⟨[], by simp⟩, fun _ _ hl => hl⟩
  · -- genNodes cons, head errors
    intro st n rest m hn _ st' h
    rw [genNodes, hn] at h
    cases h
  · -- genNodes cons, head succeeds
    intro st n rest st3 hn ihn ihrest st' h
    rw [genNodes, hn] at h
    obtain ⟨⟨dn, hdn⟩, hmn⟩ := ihn st3 hn
    obtain ⟨⟨dr, hdr⟩, hmr⟩ := ihrest st' h
    refine ⟨⟨dn ++ dr, ?_⟩, ?_⟩
    · rw [hdr, hdn]; simp
    · intro a b hl
      exact hmr a b (hmn a b hl)

/-- Claim C3: for every BinaryOp node that code generation handles
successfully, the emitted instructions are, in this exact order: the
instructions of the right operand, `push eax`, the instructions of the
left operand, `pop ebx`, then the operator's own instruction(s) — for
every operator text, commutative or not. -/
theorem claim_C3 (st : GenState) (l : ASTNode) (op : String) (r : ASTNode)
    (st' : GenState) (h : genNode st (.BinaryOpNode l op r) = .ok st') :
    ∃ (rOut lOut : List String) (stR stL : GenState),
      genNode st r = .ok stR ∧ stR.output = st.output ++ rOut ∧
      genNode (emit stR "push eax") l = .ok stL ∧
      stL.output = st.output ++ rOut ++ ["push eax"] ++ lOut ∧
      st'.output = st.output ++ rOut ++ ["push eax"] ++ lOut
          ++ ["pop ebx"] ++ binOpInstrs op := by
  rw [genNode] at h
  rcases hr : genNode st r with m | stR <;> rw [hr] at h
  · cases h
  dsimp only at h
  rcases hl : genNode (emit stR "push eax") l with m | stL <;> rw [hl] at h
  · cases h
  cases h
  obtain ⟨⟨dr, hdr⟩, -⟩ := gen_append_mono.1 st r stR hr
  obtain ⟨⟨dl, hdl⟩, -⟩ := gen_append_mono.1 (emit stR "push eax") l stL hl
  refine ⟨dr, dl, stR, stL, rfl, hdr, hl, ?_, ?_⟩
  · simp only [emit] at hdl
    rw [hdl, hdr]
  · simp only [emits, emit] at hdl ⊢
    rw [hdl, hdr]

/-- Witness for C3 at a concrete input: generating `1 + 2` from a fresh
generator emits `mov eax, 2`, `push eax`, `mov eax, 1`, `pop ebx`,
`add eax, ebx`. -/
theorem claim_C3_witness :
    ∃ (rOut lOut : List String) (stR stL : GenState),
      genNode genInit (.NumberNode 2) = .ok stR ∧
      stR.output = genInit.output ++ rOut ∧
      genNode (emit stR "push eax") (.NumberNode 1) = .ok stL ∧
      stL.output = genInit.output ++ rOut ++ ["push eax"] ++ lOut ∧
      (GenState.mk [] 4 0
          ["mov eax, 2", "push eax", "mov eax, 1", "pop ebx", "add eax, ebx"]).output
        = genInit.output ++ rOut ++ ["push eax"] ++ lOut
          ++ ["pop ebx"] ++ binOpInstrs "+" :=
  claim_C3 genInit (.NumberNode 1) "+" (.NumberNode 2) _ (by rfl)

/-- Code generation fails only with an undefined-variable error naming a
variable that is absent from the variable table it started from. -/
theorem gen_error_shape :
    (∀ (st : GenState) (n : ASTNode) (m : String), genNode st n = .error m →
        ∃ v, m = "Undefined variable: " ++ v ∧ lookupVar st.var_table v = none) ∧
    (∀ (st : GenState) (l : List ASTNode) (m : String), genNodes st l = .error m →
        ∃ v, m = "Undefined variable: " ++ v ∧ lookupVar st.var_table v = none) := by
  refine genNode.mutual_induct
    (motive_1 := fun st n => ∀ m, genNode st n = .error m →
        ∃ v, m = "Undefined variable: " ++ v ∧ lookupVar st.var_table v = none)
    (motive_2 := fun st l => ∀ m, genNodes st l = .error m →
        ∃ v, m = "Undefined variable: " ++ v ∧ lookupVar st.var_table v = none)
    ?_ ?_ ?_ ?_ ?_ ?_ ?_ ?_ ?_ ?_ ?_ ?_ ?_ ?_ ?_
  · intro st v m h
    rw [genNode] at h
    cases h
  · -- BinaryOpNode, right errors
    intro st l op r m hr ihr m' h
    rw [genNode, hr] at h
    cases h
    exact ihr _ hr
  · -- BinaryOpNode, left errors
    intro st l op r st3 hr st2 m hl ihr ihl m' h
    rw [genNode, hr] at h
    simp only [hl] at h
    cases h
    obtain ⟨v, hv, hnone⟩ := ihl _ hl
    refine ⟨v, hv, ?_⟩
    rcases hst : lookupVar st.var_table v with _ | o
    · rfl
    · have := (gen_append_mono.1 st r st3 hr).2 v o hst
      rw [show (emit st3 "push eax").var_table = st3.var_table from rfl] at hnone
      rw [this] at hnone
      cases hnone
  · -- BinaryOpNode, both succeed
    intro st l op r st3 hr st2 st4 hl _ _ m h
    rw [genNode, hr] at h
    simp only [hl] at h
    cases h
  · intro st name off hoff m h
    rw [genNode, hoff] at h
    cases h
  · -- VariableNode, undefined: the error names the variable
    intro st name hnone m h
    rw [genNode, hnone] at h
    cases h
    exact ⟨name, rfl, hnone⟩
  · -- AssignmentNode, value errors
    intro st name v m hv ihv m' h
    rw [genNode, hv] at h
    cases h
    exact ihv _ hv
  · intro st name v st3 hv off hoff _ m h
    rw [genNode, hv] at h
    simp only [hoff] at h
    cases h
  · intro st name v st3 hv hnone _ m h
    rw [genNode, hv] at h
    simp only [hnone] at h
    cases h
  · -- IfNode, condition errors
    intro st cond body st0 m hc ihc m' h
    rw [genNode] at h
    simp only [hc] at h
    cases h
    exact ihc _ hc
  · -- IfNode, body errors
    intro st cond body label st0 st3 hc st2 m hb ihc ihb m' h
    rw [genNode] at h
    simp only [hc, hb] at h
    cases h
    obtain ⟨v, hv, hnone⟩ := ihb _ hb
    refine ⟨v, hv, ?_⟩
    rcases hst : lookupVar st.var_table v with _ | o
    · rfl
    · have h1 : lookupVar st0.var_table v = some o := hst
      have h2 := (gen_append_mono.1 st0 cond st3 hc).2 v o h1
      have h3 : lookupVar st2.var_table v = some o := h2
      rw [h3] at hnone
      cases hnone
  · intro st cond body label st0 st3 hc st2 st4 hb _ _ m h
    rw [genNode] at h
    simp only [hc, hb] at h
    cases h
  · intro st m h
    rw [genNodes] at h
    cases h
  · -- genNodes cons, head errors
    intro st n rest m hn ihn m' h
    rw [genNodes, hn] at h
    cases h
    exact ihn _ hn
  · -- genNodes cons, tail errors
    intro st n rest st3 hn ihn ihrest m h
    rw [genNodes, hn] at h
    obtain ⟨v, hv, hnone⟩ := ihrest _ h
    refine ⟨v, hv, ?_⟩
    rcases hst : lookupVar st.var_table v with _ | o
    · rfl
    · have := (gen_append_mono.1 st n st3 hn).2 v o hst
      rw [this] at hnone
      cases hnone

/-- Claim C6: a Variable node whose name is absent from the variable
table makes generation fail with an error naming that variable; one
whose name is present emits a load from its stack offset and succeeds;
and, wherever in a statement sequence the offending Variable node
occurs, the failure of the whole generation run is an undefined-variable
error naming a variable not previously entered into the table. -/
theorem claim_C6 (st : GenState) (name : String) :
    (lookupVar st.var_table name = none →
        genNode st (.VariableNode name) =
          .error ("Undefined variable: " ++ name)) ∧
    (∀ off, lookupVar st.var_table name = some off →
        genNode st (.VariableNode name) =
          .ok (emit st ("mov eax, [ebp-" ++ toString off ++ "]"))) ∧
    (∀ (nodes : List ASTNode) (m : String), genNodes st nodes = .error m →
        ∃ v, m = "Undefined variable: " ++ v ∧
          lookupVar st.var_table v = none) := by
  refine ⟨?_, ?_, ?_⟩
  · intro h
    rw [genNode, h]
  · intro off h
    rw [genNode, h]
  · intro nodes m h
    exact gen_error_shape.2 st nodes m h

/-- Witness for C6 at concrete inputs: with a table containing only x at
offset 4, referencing y fails naming y, and referencing x loads from
`[ebp-4]`. -/
theorem claim_C6_witness :
    genNode (GenState.mk [("x", 4)] 8 0 []) (.VariableNode "y") =
        .error ("Undefined variable: " ++ "y") ∧
    genNode (GenState.mk [("x", 4)] 8 0 []) (.VariableNode "x") =
        .ok (emit (GenState.mk [("x", 4)] 8 0 [])
          ("mov eax, [ebp-" ++ toString 4 ++ "]")) :=
  ⟨(claim_C6 (GenState.mk [("x", 4)] 8 0 []) "y").1 (by rfl),
   (claim_C6 (GenState.mk [("x", 4)] 8 0 []) "x").2.1 4 (by rfl)⟩

/-! ### Conditional parsing (C7) -/

/-- Claim C7: after consuming `if`, the condition expression and an
optional NEWLINE, `parse_if_statement` fails unless the next token is an
INDENT; otherwise it consumes exactly one INDENT and runs the body loop,
which stops at a DEDENT token (consuming it, since input remains) or at
end of input (leaving the EOF token unconsumed: a body ending exactly at
end of input succeeds without a DEDENT). -/
theorem claim_C7 (fuel : Nat) (tIf : Token) (ts ts1 : List Token)
    (cond : ASTNode) (hcond : parseExpression ts = .ok (cond, ts1)) :
    (check .INDENT (consumeNewline ts1) = false →
        parseIfStatement (fuel + 1) (tIf :: ts) =
          .error "Expected indented block after if statement") ∧
    (check .INDENT (consumeNewline ts1) = true →
        ∀ (body : List ASTNode) (ts2 : List Token),
          parseIfBody fuel [] (consumeNewline ts1).tail = .ok (body, ts2) →
          parseIfStatement (fuel + 1) (tIf :: ts) =
            .ok (.IfNode cond body, ts2)) ∧
    (∀ (acc : List ASTNode) (t : Token) (rest : List Token),
        t.type = .DEDENT →
        parseIfBody (fuel + 1) acc (t :: rest) = .ok (acc, rest)) ∧
    (∀ (acc : List ASTNode) (t : Token) (rest : List Token),
        t.type = .EOF →
        parseIfBody (fuel + 1) acc (t :: rest) = .ok (acc, t :: rest)) := by
  refine ⟨?_, ?_, ?_, ?_⟩
  · intro hno
    rw [parseIfStatement]
    simp only [List.tail_cons, hcond]
    rw [if_neg (by simp [hno])]
  · intro hyes body ts2 hbody
    rw [parseIfStatement]
    simp only [List.tail_cons, hcond]
    rw [if_pos hyes, hbody]
  · intro acc t rest ht
    rw [parseIfBody]
    have hchk : check .DEDENT (t :: rest) = true := by
      simp [check, ht]
    have hend : isAtEnd (t :: rest) = false := by
      simp [isAtEnd, ht]
    rw [if_neg (by simp [hchk])]
    rw [if_neg (by simp [hend])]
    simp [consumeDedent, hchk]
  · intro acc t rest ht
    rw [parseIfBody]
    have hchk : check .DEDENT (t :: rest) = false := by
      simp [check, ht]
    have hend : isAtEnd (t :: rest) = true := by
      simp [isAtEnd, ht]
    rw [if_neg (by simp [hend])]
    rw [if_pos hend]

/-- Witness for C7 at a concrete input: parsing the token sequence of
`"if x:\n    y = 1"` (whose body ends exactly at end of input, with no
DEDENT) succeeds with a one-statement body. -/
theorem claim_C7_witness :
    parseIfStatement 6
        (Token.mk .KEYWORD "if" 1 1 ::
          [Token.mk .IDENTIFIER "x" 1 4, Token.mk .NEWLINE "\n" 1 6,
           Token.mk .INDENT "    " 2 1, Token.mk .IDENTIFIER "y" 2 5,
           Token.mk .OPERATOR "=" 2 7, Token.mk .NUMBER "1" 2 9,
           Token.mk .EOF "" 2 10]) =
      .ok (.IfNode (.VariableNode "x")
            [.AssignmentNode "y" (.NumberNode 1)],
          [Token.mk .EOF "" 2 10]) :=
  (claim_C7 5 (Token.mk .KEYWORD "if" 1 1)
      [Token.mk .IDENTIFIER "x" 1 4, Token.mk .NEWLINE "\n" 1 6,
       Token.mk .INDENT "    " 2 1, Token.mk .IDENTIFIER "y" 2 5,
       Token.mk .OPERATOR "=" 2 7, Token.mk .NUMBER "1" 2 9,
       Token.mk .EOF "" 2 10]
      [Token.mk .NEWLINE "\n" 1 6, Token.mk .INDENT "    " 2 1,
       Token.mk .IDENTIFIER "y" 2 5, Token.mk .OPERATOR "=" 2 7,
       Token.mk .NUMBER "1" 2 9, Token.mk .EOF "" 2 10]
      (.VariableNode "x") (by rfl)).2.1 (by rfl)
    [.AssignmentNode "y" (.NumberNode 1)] [Token.mk .EOF "" 2 10] (by rfl)

/-! ### The parser meets the spec's precedence grammar (C2) -/

theorem PrecPrimary_length {ts : List Token} {e : ASTNode}
    (h : PrecPrimary ts e) : ts.length = 1 := by
  cases h <;> rfl

theorem PrecFactor_length_pos {ts : List Token} {e : ASTNode}
    (h : PrecFactor ts e) : 1 ≤ ts.length := by
  cases h with
  | mk p tail e0 e hp ht =>
    have := PrecPrimary_length hp
    simp [this]

theorem PrecTerm_length_pos {ts : List Token} {e : ASTNode}
    (h : PrecTerm ts e) : 1 ≤ ts.length := by
  cases h with
  | mk f tail e0 e hf ht =>
    have := PrecFactor_length_pos hf
    simp only [List.length_append]
    omega

theorem matchVals_cons_mem (ops : List String) (t : Token) (rest : List Token)
    (hty : ¬ t.type = .EOF) (hv : t.value ∈ ops) :
    matchVals ops (t :: rest) = some (t, rest) := by
  simp [matchVals, hty, hv]

theorem matchVals_cons_notmem (ops : List String) (t : Token)
    (rest : List Token) (hv : t.value ∉ ops) :
    matchVals ops (t :: rest) = none := by
  by_cases hty : t.type = .EOF <;> simp [matchVals, hty, hv]

theorem mem_addOps_not_mulOps {v : String} (h : v ∈ addOps) : v ∉ mulOps := by
  have h2 : v = "+" ∨ v = "-" := by simpa [addOps] using h
  rcases h2 with rfl | rfl <;> decide

theorem mem_cmpOps_not_addOps {v : String} (h : v ∈ cmpOps) : v ∉ addOps := by
  have h2 : v = "<" ∨ v = ">" ∨ v = "<=" ∨ v = ">=" ∨ v = "==" ∨ v = "!=" := by
    simpa [cmpOps] using h
  rcases h2 with rfl | rfl | rfl | rfl | rfl | rfl <;> decide

theorem mem_cmpOps_not_mulOps {v : String} (h : v ∈ cmpOps) : v ∉ mulOps := by
  have h2 : v = "<" ∨ v = ">" ∨ v = "<=" ∨ v = ">=" ∨ v = "==" ∨ v = "!=" := by
    simpa [cmpOps] using h
  rcases h2 with rfl | rfl | rfl | rfl | rfl | rfl <;> decide

theorem parsePrimary_den {ts : List Token} {e : ASTNode}
    (h : PrecPrimary ts e) (rest : List Token) :
    parsePrimary (ts ++ rest) = .ok (e, rest) := by
  cases h with
  | num t ht => simp [parsePrimary, ht]
  | var t ht => simp [parsePrimary, ht]

theorem termTail_head_not_mul {e efin : ASTNode} {ts : List Token}
    (h : PrecTermTail e ts efin) (rest : List Token)
    (hrest : matchVals mulOps rest = none) :
    matchVals mulOps (ts ++ rest) = none := by
  cases h with
  | nil => simpa using hrest
  | cons e t f ts' e1 e2 hty hv hf ht =>
    simp only [List.cons_append]
    exact matchVals_cons_notmem _ _ _ (mem_addOps_not_mulOps hv)

theorem cmpTail_head_not_add {e efin : ASTNode} {ts : List Token}
    (h : PrecCmpTail e ts efin) (rest : List Token)
    (hrest : matchVals addOps rest = none) :
    matchVals addOps (ts ++ rest) = none := by
  cases h with
  | nil => simpa using hrest
  | cons e t f ts' e1 e2 hty hv hf ht =>
    simp only [List.cons_append]
    exact matchVals_cons_notmem _ _ _ (mem_cmpOps_not_addOps hv)

theorem cmpTail_head_not_mul {e efin : ASTNode} {ts : List Token}
    (h : PrecCmpTail e ts efin) (rest : List Token)
    (hrest : matchVals mulOps rest = none) :
    matchVals mulOps (ts ++ rest) = none := by
  cases h with
  | nil => simpa using hrest
  | cons e t f ts' e1 e2 hty hv hf ht =>
    simp only [List.cons_append]
    exact matchVals_cons_notmem _ _ _ (mem_cmpOps_not_mulOps hv)

theorem parseFactorLoop_den {e efin : ASTNode} {ts : List Token}
    (h : PrecFactorTail e ts efin) :
    ∀ (rest : List Token), matchVals mulOps rest = none →
    ∀ (fuel : Nat), ts.length < fuel →
    parseFactorLoop fuel e (ts ++ rest) = .ok (efin, rest) := by
  induction h with
  | nil e =>
    intro rest hrest fuel hfuel
    match fuel, hfuel with
    | fuel + 1, _ =>
      rw [parseFactorLoop]
      simp only [List.nil_append]
      rw [hrest]
  | cons e t p ts' e1 e2 hty hv hp ht ih =>
    intro rest hrest fuel hfuel
    match fuel, hfuel with
    | fuel + 1, hfuel =>
      rw [parseFactorLoop]
      simp only [List.cons_append, List.append_assoc]
      rw [matchVals_cons_mem mulOps t _ (by rw [hty]; decide) hv]
      dsimp only
      rw [parsePrimary_den hp (ts' ++ rest)]
      refine ih rest hrest fuel ?_
      have hp1 := PrecPrimary_length hp
      simp only [List.length_cons, List.length_append, hp1] at hfuel
      omega

theorem parseFactor_den {e : ASTNode} {ts : List Token}
    (h : PrecFactor ts e) (rest : List Token)
    (hrest : matchVals mulOps rest = none) :
    parseFactor (ts ++ rest) = .ok (e, rest) := by
  cases h with
  | mk p tail e0 e hp ht =>
    unfold parseFactor
    rw [List.append_assoc, parsePrimary_den hp (tail ++ rest)]
    dsimp only
    refine parseFactorLoop_den ht rest hrest _ ?_
    simp only [List.length_append]
    omega

theorem parseTermLoop_den {e efin : ASTNode} {ts : List Token}
    (h : PrecTermTail e ts efin) :
    ∀ (rest : List Token),
    matchVals addOps rest = none → matchVals mulOps rest = none →
    ∀ (fuel : Nat), ts.length < fuel →
    parseTermLoop fuel e (ts ++ rest) = .ok (efin, rest) := by
  induction h with
  | nil e =>
    intro rest hadd hmul fuel hfuel
    match fuel, hfuel with
    | fuel + 1, _ =>
      rw [parseTermLoop]
      simp only [List.nil_append]
      rw [hadd]
  | cons e t f ts' e1 e2 hty hv hf ht ih =>
    intro rest hadd hmul fuel hfuel
    match fuel, hfuel with
    | fuel + 1, hfuel =>
      rw [parseTermLoop]
      simp only [List.cons_append, List.append_assoc]
      rw [matchVals_cons_mem addOps t _ (by rw [hty]; decide) hv]
      dsimp only
      rw [parseFactor_den hf (ts' ++ rest) (termTail_head_not_mul ht rest hmul)]
      refine ih rest hadd hmul fuel ?_
      have hf1 := PrecFactor_length_pos hf
      simp only [List.length_cons, List.length_append] at hfuel
      omega

theorem parseTerm_den {e : ASTNode} {ts : List Token}
    (h : PrecTerm ts e) (rest : List Token)
    (hadd : matchVals addOps rest = none)
    (hmul : matchVals mulOps rest = none) :
    parseTerm (ts ++ rest) = .ok (e, rest) := by
  cases h with
  | mk f tail e0 e hf ht =>
    unfold parseTerm
    rw [List.append_assoc,
      parseFactor_den hf (tail ++ rest) (termTail_head_not_mul ht rest hmul)]
    dsimp only
    refine parseTermLoop_den ht rest hadd hmul _ ?_
    simp only [List.length_append]
    omega

theorem parseComparisonLoop_den {e efin : ASTNode} {ts : List Token}
    (h : PrecCmpTail e ts efin) :
    ∀ (rest : List Token),
    matchVals cmpOps rest = none → matchVals addOps rest = none →
    matchVals mulOps rest = none →
    ∀ (fuel : Nat), ts.length < fuel →
    parseComparisonLoop fuel e (ts ++ rest) = .ok (efin, rest) := by
  induction h with
  | nil e =>
    intro rest hcmp hadd hmul fuel hfuel
    match fuel, hfuel with
    | fuel + 1, _ =>
      rw [parseComparisonLoop]
      simp only [List.nil_append]
      rw [hcmp]
  | cons e t f ts' e1 e2 hty hv hf ht ih =>
    intro rest hcmp hadd hmul fuel hfuel
    match fuel, hfuel with
    | fuel + 1, hfuel =>
      rw [parseComparisonLoop]
      simp only [List.cons_append, List.append_assoc]
      rw [matchVals_cons_mem cmpOps t _ (by rw [hty]; decide) hv]
      dsimp only
      rw [parseTerm_den hf (ts' ++ rest) (cmpTail_head_not_add ht rest hadd)
        (cmpTail_head_not_mul ht rest hmul)]
      refine ih rest hcmp hadd hmul fuel ?_
      have hf1 := PrecTerm_length_pos hf
      simp only [List.length_cons, List.length_append] at hfuel
      omega

/-- Completeness of `parse_expression` for the spec's precedence
grammar: a well-formed expression followed by tokens that continue no
binary-operator level parses to exactly its precedence-correct tree,
consuming exactly its own tokens. -/
theorem parseExpression_den {e : ASTNode} {ts : List Token}
    (h : PrecExpr ts e) (rest : List Token)
    (hcmp : matchVals cmpOps rest = none)
    (hadd : matchVals addOps rest = none)
    (hmul : matchVals mulOps rest = none) :
    parseExpression (ts ++ rest) = .ok (e, rest) := by
  cases h with
  | mk f tail e0 e hf ht =>
    unfold parseExpression parseComparison
    rw [List.append_assoc,
      parseTerm_den hf (tail ++ rest) (cmpTail_head_not_add ht rest hadd)
        (cmpTail_head_not_mul ht rest hmul)]
    dsimp only
    refine parseComparisonLoop_den ht rest hcmp hadd hmul _ ?_
    simp only [List.length_append]
    omega

/-- Claim C2: for every well-formed single-line assignment statement
`name = expr` — an Identifier token, a token with text `=`, the tokens
of a well-formed expression, a NEWLINE and the final EOF — parsing
yields exactly one Assignment node whose value subtree is the
expression's precedence-correct shape (multiplicative over additive over
comparison, left-associative at each level, as captured by `PrecExpr`). -/
theorem claim_C2 (nameTok eqTok nlTok eofTok : Token) (ts : List Token)
    (e : ASTNode)
    (hname : nameTok.type = .IDENTIFIER)
    (heq : eqTok.value = "=")
    (hexpr : PrecExpr ts e)
    (hnl : nlTok.type = .NEWLINE) (hnlv : nlTok.value = "\n")
    (heof : eofTok.type = .EOF) :
    parse (nameTok :: eqTok :: (ts ++ [nlTok, eofTok])) =
      .ok [.AssignmentNode nameTok.value e] := by
  have hcmp : matchVals cmpOps [nlTok, eofTok] = none :=
    matchVals_cons_notmem _ _ _ (by rw [hnlv]; decide)
  have hadd : matchVals addOps [nlTok, eofTok] = none :=
    matchVals_cons_notmem _ _ _ (by rw [hnlv]; decide)
  have hmul : matchVals mulOps [nlTok, eofTok] = none :=
    matchVals_cons_notmem _ _ _ (by rw [hnlv]; decide)
  have hexprparse : parseExpression (ts ++ [nlTok, eofTok]) =
      .ok (e, [nlTok, eofTok]) :=
    parseExpression_den hexpr [nlTok, eofTok] hcmp hadd hmul
  set L := (nameTok :: eqTok :: (ts ++ [nlTok, eofTok])).length with hL
  have hstmt : parseStatement (3 * L + 2)
      (nameTok :: eqTok :: (ts ++ [nlTok, eofTok])) =
      .ok (.AssignmentNode nameTok.value e, [eofTok]) := by
    rw [show 3 * L + 2 = (3 * L + 1) + 1 from rfl, parseStatement]
    have hskip : skipNewlines (nameTok :: eqTok :: (ts ++ [nlTok, eofTok]))
        = nameTok :: eqTok :: (ts ++ [nlTok, eofTok]) := by
      rw [skipNewlines, if_neg (by simp [hname])]
    rw [hskip]
    dsimp only
    rw [if_pos ⟨hname, by simp [peekNextValue, heq]⟩]
    rw [parseAssignment]
    rw [hexprparse]
    dsimp only
    rw [show consumeNewline [nlTok, eofTok] = [eofTok] by
      rw [consumeNewline, if_pos hnl]]
  unfold parse
  rw [show 3 * L + 3 = (3 * L + 2) + 1 from rfl, parseProgram]
  rw [if_neg (by simp [isAtEnd, hname])]
  rw [hstmt]
  dsimp only
  rw [show 3 * L + 2 = (3 * L + 1) + 1 from rfl, parseProgram]
  rw [if_pos (by simp [isAtEnd, heof])]

/-- Witness for C2 at the claim's concrete input: the token sequence of
`"z = x + y * 2\n"` parses to
`Assignment(z, BinaryOp(+, Variable(x), BinaryOp(*, Variable(y),
NumberLiteral(2))))`. -/
theorem claim_C2_witness :
    parse (tokenize "z = x + y * 2\n") =
      .ok [.AssignmentNode "z"
            (.BinaryOpNode (.VariableNode "x") "+"
              (.BinaryOpNode (.VariableNode "y") "*" (.NumberNode 2)))] := by
  have htok : tokenize "z = x + y * 2\n" =
      [Token.mk .IDENTIFIER "z" 1 1, Token.mk .OPERATOR "=" 1 3,
       Token.mk .IDENTIFIER "x" 1 5, Token.mk .OPERATOR "+" 1 7,
       Token.mk .IDENTIFIER "y" 1 9, Token.mk .OPERATOR "*" 1 11,
       Token.mk .NUMBER "2" 1 13, Token.mk .NEWLINE "\n" 1 14,
       Token.mk .EOF "" 2 1] := by rfl
  have hfy : PrecFactor
      [Token.mk .IDENTIFIER "y" 1 9, Token.mk .OPERATOR "*" 1 11,
       Token.mk .NUMBER "2" 1 13]
      (.BinaryOpNode (.VariableNode "y") "*" (.NumberNode 2)) :=
    PrecFactor.mk [Token.mk .IDENTIFIER "y" 1 9]
      (Token.mk .OPERATOR "*" 1 11 :: ([Token.mk .NUMBER "2" 1 13] ++ []))
      (.VariableNode "y")
      (.BinaryOpNode (.VariableNode "y") "*" (.NumberNode 2))
      (PrecPrimary.var _ rfl)
      (PrecFactorTail.cons (.VariableNode "y") (Token.mk .OPERATOR "*" 1 11)
        [Token.mk .NUMBER "2" 1 13] [] (.NumberNode 2)
        (.BinaryOpNode (.VariableNode "y") "*" (.NumberNode 2))
        rfl (by decide) (PrecPrimary.num _ rfl) (PrecFactorTail.nil _))
  have hter : PrecTerm
      [Token.mk .IDENTIFIER "x" 1 5, Token.mk .OPERATOR "+" 1 7,
       Token.mk .IDENTIFIER "y" 1 9, Token.mk .OPERATOR "*" 1 11,
       Token.mk .NUMBER "2" 1 13]
      (.BinaryOpNode (.VariableNode "x") "+"
        (.BinaryOpNode (.VariableNode "y") "*" (.NumberNode 2))) :=
    PrecTerm.mk [Token.mk .IDENTIFIER "x" 1 5]
      (Token.mk .OPERATOR "+" 1 7 ::
        ([Token.mk .IDENTIFIER "y" 1 9, Token.mk .OPERATOR "*" 1 11,
          Token.mk .NUMBER "2" 1 13] ++ []))
      (.VariableNode "x")
      (.BinaryOpNode (.VariableNode "x") "+"
        (.BinaryOpNode (.VariableNode "y") "*" (.NumberNode 2)))
      (PrecFactor.mk [Token.mk .IDENTIFIER "x" 1 5] [] (.VariableNode "x")
        (.VariableNode "x") (PrecPrimary.var _ rfl) (PrecFactorTail.nil _))
      (PrecTermTail.cons (.VariableNode "x") (Token.mk .OPERATOR "+" 1 7)
        [Token.mk .IDENTIFIER "y" 1 9, Token.mk .OPERATOR "*" 1 11,
         Token.mk .NUMBER "2" 1 13] []
        (.BinaryOpNode (.VariableNode "y") "*" (.NumberNode 2))
        (.BinaryOpNode (.VariableNode "x") "+"
          (.BinaryOpNode (.VariableNode "y") "*" (.NumberNode 2)))
        rfl (by decide) hfy (PrecTermTail.nil _))
  have hder : PrecExpr
      [Token.mk .IDENTIFIER "x" 1 5, Token.mk .OPERATOR "+" 1 7,
       Token.mk .IDENTIFIER "y" 1 9, Token.mk .OPERATOR "*" 1 11,
       Token.mk .NUMBER "2" 1 13]
      (.BinaryOpNode (.VariableNode "x") "+"
        (.BinaryOpNode (.VariableNode "y") "*" (.NumberNode 2))) :=
    PrecExpr.mk
      [Token.mk .IDENTIFIER "x" 1 5, Token.mk .OPERATOR "+" 1 7,
       Token.mk .IDENTIFIER "y" 1 9, Token.mk .OPERATOR "*" 1 11,
       Token.mk .NUMBER "2" 1 13] []
      (.BinaryOpNode (.VariableNode "x") "+"
        (.BinaryOpNode (.VariableNode "y") "*" (.NumberNode 2)))
      (.BinaryOpNode (.VariableNode "x") "+"
        (.BinaryOpNode (.VariableNode "y") "*" (.NumberNode 2)))
      hter (PrecCmpTail.nil _)
  rw [htok]
  exact claim_C2 (Token.mk .IDENTIFIER "z" 1 1) (Token.mk .OPERATOR "=" 1 3)
    (Token.mk .NEWLINE "\n" 1 14) (Token.mk .EOF "" 2 1)
    [Token.mk .IDENTIFIER "x" 1 5, Token.mk .OPERATOR "+" 1 7,
     Token.mk .IDENTIFIER "y" 1 9, Token.mk .OPERATOR "*" 1 11,
     Token.mk .NUMBER "2" 1 13]
    (.BinaryOpNode (.VariableNode "x") "+"
      (.BinaryOpNode (.VariableNode "y") "*" (.NumberNode 2)))
    rfl rfl hder rfl rfl rfl

/-! ### Provenance of BinaryOp operators in parser output (C5)

Every operator text in a parsed AST is the text of some token of the
input: the parser only builds BinaryOp nodes from tokens it matched.
Combined with the lexeme shapes of lexer output, no AST produced from
lexer output ever contains a two-character comparison operator. -/

theorem parsePrimary_inv {ts ts' : List Token} {e : ASTNode}
    (h : parsePrimary ts = .ok (e, ts')) :
    ts' <:+ ts ∧ astOps e = [] := by
  rcases ts with _ | ⟨t, rest⟩
  · rw [parsePrimary] at h
    cases h
  · rw [parsePrimary] at h
    split at h
    · cases h
      exact ⟨List.suffix_cons _ _, rfl⟩
    · split at h
      · cases h
        exact ⟨List.suffix_cons _ _, rfl⟩
      · cases h

theorem matchVals_some_inv {ops : List String} {ts ts1 : List Token}
    {t : Token} (h : matchVals ops ts = some (t, ts1)) :
    ts = t :: ts1 ∧ t.value ∈ ops := by
  rcases ts with _ | ⟨t0, rest⟩
  · rw [matchVals] at h
    cases h
  · rw [matchVals] at h
    split at h
    · cases h
    · split at h
      · next hv =>
        cases h
        exact ⟨rfl, hv⟩
      · cases h

theorem parseFactorLoop_inv :
    ∀ (fuel : Nat) (e0 : ASTNode) (ts : List Token) (e : ASTNode)
      (ts' : List Token),
      parseFactorLoop fuel e0 ts = .ok (e, ts') →
      ts' <:+ ts ∧
        ∀ op ∈ astOps e, op ∈ astOps e0 ∨ ∃ t ∈ ts, t.value = op := by
  intro fuel
  induction fuel with
  | zero =>
    intro e0 ts e ts' h
    rw [parseFactorLoop] at h
    cases h
    exact ⟨List.suffix_refl _, fun op hop => .inl hop⟩
  | succ n ih =>
    intro e0 ts e ts' h
    rw [parseFactorLoop] at h
    rcases hm : matchVals mulOps ts with _ | ⟨t, ts1⟩ <;> rw [hm] at h
    · cases h
      exact ⟨List.suffix_refl _, fun op hop => .inl hop⟩
    · dsimp only at h
      rcases hp : parsePrimary ts1 with m | ⟨r, ts2⟩ <;> rw [hp] at h
      · cases h
      dsimp only at h
      obtain ⟨hcons, hv⟩ := matchVals_some_inv hm
      obtain ⟨hsfx2, hops2⟩ := parsePrimary_inv hp
      obtain ⟨hsfx, hops⟩ := ih _ _ _ _ h
      subst hcons
      have hsub : ts2 <:+ t :: ts1 :=
        hsfx2.trans (List.suffix_cons t ts1)
      refine ⟨hsfx.trans hsub, ?_⟩
      intro op hop
      rcases hops op hop with hin | ⟨t2, ht2, hval⟩
      · simp only [astOps, hops2] at hin
        rcases List.mem_append.mp hin with hl | hr
        · exact .inl hl
        · rcases List.mem_cons.mp hr with rfl | hf
          · exact .inr ⟨t, List.mem_cons_self t ts1, rfl⟩
          · simp at hf
      · exact .inr ⟨t2, hsub.subset ht2, hval⟩

theorem parseFactor_inv {ts ts' : List Token} {e : ASTNode}
    (h : parseFactor ts = .ok (e, ts')) :
    ts' <:+ ts ∧ ∀ op ∈ astOps e, ∃ t ∈ ts, t.value = op := by
  unfold parseFactor at h
  rcases hp : parsePrimary ts with m | ⟨e0, r⟩ <;> rw [hp] at h
  · cases h
  dsimp only at h
  obtain ⟨hsfx0, hops0⟩ := parsePrimary_inv hp
  obtain ⟨hsfx, hops⟩ := parseFactorLoop_inv _ _ _ _ _ h
  refine ⟨hsfx.trans hsfx0, ?_⟩
  intro op hop
  rcases hops op hop with hin | ⟨t, ht, hval⟩
  · rw [hops0] at hin
    simp at hin
  · exact ⟨t, hsfx0.subset ht, hval⟩

theorem parseTermLoop_inv :
    ∀ (fuel : Nat) (e0 : ASTNode) (ts : List Token) (e : ASTNode)
      (ts' : List Token),
      parseTermLoop fuel e0 ts = .ok (e, ts') →
      ts' <:+ ts ∧
        ∀ op ∈ astOps e, op ∈ astOps e0 ∨ ∃ t ∈ ts, t.value = op := by
  intro fuel
  induction fuel with
  | zero =>
    intro e0 ts e ts' h
    rw [parseTermLoop] at h
    cases h
    exact ⟨List.suffix_refl _, fun op hop => .inl hop⟩
  | succ n ih =>
    intro e0 ts e ts' h
    rw [parseTermLoop] at h
    rcases hm : matchVals addOps ts with _ | ⟨t, ts1⟩ <;> rw [hm] at h
    · cases h
      exact ⟨List.suffix_refl _, fun op hop => .inl hop⟩
    · dsimp only at h
      rcases hp : parseFactor ts1 with m | ⟨r, ts2⟩ <;> rw [hp] at h
      · cases h
      dsimp only at h
      obtain ⟨hcons, hv⟩ := matchVals_some_inv hm
      obtain ⟨hsfx2, hops2⟩ := parseFactor_inv hp
      obtain ⟨hsfx, hops⟩ := ih _ _ _ _ h
      subst hcons
      have hsub : ts2 <:+ t :: ts1 :=
        hsfx2.trans (List.suffix_cons t ts1)
      refine ⟨hsfx.trans hsub, ?_⟩
      intro op hop
      rcases hops op hop with hin | ⟨t2, ht2, hval⟩
      · simp only [astOps] at hin
        rcases List.mem_append.mp hin with hl | hr
        · exact .inl hl
        · rcases List.mem_cons.mp hr with rfl | hf
          · exact .inr ⟨t, List.mem_cons_self t ts1, rfl⟩
          · obtain ⟨t2, ht2, hval⟩ := hops2 op hf
            exact .inr ⟨t2, List.mem_cons_of_mem t ht2, hval⟩
      · exact .inr ⟨t2, hsub.subset ht2, hval⟩

theorem parseTerm_inv {ts ts' : List Token} {e : ASTNode}
    (h : parseTerm ts = .ok (e, ts')) :
    ts' <:+ ts ∧ ∀ op ∈ astOps e, ∃ t ∈ ts, t.value = op := by
  unfold parseTerm at h
  rcases hp : parseFactor ts with m | ⟨e0, r⟩ <;> rw [hp] at h
  · cases h
  dsimp only at h
  obtain ⟨hsfx0, hops0⟩ := parseFactor_inv hp
  obtain ⟨hsfx, hops⟩ := parseTermLoop_inv _ _ _ _ _ h
  refine ⟨hsfx.trans hsfx0, ?_⟩
  intro op hop
  rcases hops op hop with hin | ⟨t, ht, hval⟩
  · exact hops0 op hin
  · exact ⟨t, hsfx0.subset ht, hval⟩

theorem parseComparisonLoop_inv :
    ∀ (fuel : Nat) (e0 : ASTNode) (ts : List Token) (e : ASTNode)
      (ts' : List Token),
      parseComparisonLoop fuel e0 ts = .ok (e, ts') →
      ts' <:+ ts ∧
        ∀ op ∈ astOps e, op ∈ astOps e0 ∨ ∃ t ∈ ts, t.value = op := by
  intro fuel
  induction fuel with
  | zero =>
    intro e0 ts e ts' h
    rw [parseComparisonLoop] at h
    cases h
    exact ⟨List.suffix_refl _, fun op hop => .inl hop⟩
  | succ n ih =>
    intro e0 ts e ts' h
    rw [parseComparisonLoop] at h
    rcases hm : matchVals cmpOps ts with _ | ⟨t, ts1⟩ <;> rw [hm] at h
    · cases h
      exact ⟨List.suffix_refl _, fun op hop => .inl hop⟩
    · dsimp only at h
      rcases hp : parseTerm ts1 with m | ⟨r, ts2⟩ <;> rw [hp] at h
      · cases h
      dsimp only at h
      obtain ⟨hcons, hv⟩ := matchVals_some_inv hm
      obtain ⟨hsfx2, hops2⟩ := parseTerm_inv hp
      obtain ⟨hsfx, hops⟩ := ih _ _ _ _ h
      subst hcons
      have hsub : ts2 <:+ t :: ts1 :=
        hsfx2.trans (List.suffix_cons t ts1)
      refine ⟨hsfx.trans hsub, ?_⟩
      intro op hop
      rcases hops op hop with hin | ⟨t2, ht2, hval⟩
      · simp only [astOps] at hin
        rcases List.mem_append.mp hin with hl | hr
        · exact .inl hl
        · rcases List.mem_cons.mp hr with rfl | hf
          · exact .inr ⟨t, List.mem_cons_self t ts1, rfl⟩
          · obtain ⟨t2, ht2, hval⟩ := hops2 op hf
            exact .inr ⟨t2, List.mem_cons_of_mem t ht2, hval⟩
      · exact .inr ⟨t2, hsub.subset ht2, hval⟩

theorem parseExpression_inv {ts ts' : List Token} {e : ASTNode}
    (h : parseExpression ts = .ok (e, ts')) :
    ts' <:+ ts ∧ ∀ op ∈ astOps e, ∃ t ∈ ts, t.value = op := by
  unfold parseExpression parseComparison at h
  rcases hp : parseTerm ts with m | ⟨e0, r⟩ <;> rw [hp] at h
  · cases h
  dsimp only at h
  obtain ⟨hsfx0, hops0⟩ := parseTerm_inv hp
  obtain ⟨hsfx, hops⟩ := parseComparisonLoop_inv _ _ _ _ _ h
  refine ⟨hsfx.trans hsfx0, ?_⟩
  intro op hop
  rcases hops op hop with hin | ⟨t, ht, hval⟩
  · exact hops0 op hin
  · exact ⟨t, hsfx0.subset ht, hval⟩

theorem skipNewlines_suffix (ts : List Token) : skipNewlines ts <:+ ts := by
  induction ts with
  | nil => exact List.suffix_refl _
  | cons t rest ih =>
    rw [skipNewlines]
    split
    · exact ih.trans (List.suffix_cons t rest)
    · exact List.suffix_refl _

theorem consumeNewline_suffix (ts : List Token) : consumeNewline ts <:+ ts := by
  rcases ts with _ | ⟨t, rest⟩
  · exact List.suffix_refl _
  · rw [consumeNewline]
    split
    · exact List.suffix_cons t rest
    · exact List.suffix_refl _

theorem consumeDedent_suffix (ts : List Token) : consumeDedent ts <:+ ts := by
  unfold consumeDedent
  split
  · rcases ts with _ | ⟨t, rest⟩
    · exact List.suffix_refl _
    · exact List.suffix_cons t rest
  · exact List.suffix_refl _

theorem astOpsList_append (a b : List ASTNode) :
    astOpsList (a ++ b) = astOpsList a ++ astOpsList b := by
  induction a with
  | nil => simp [astOpsList]
  | cons x rest ih => simp [astOpsList, ih]

theorem parseAssignment_inv {ts ts' : List Token} {e : ASTNode}
    (h : parseAssignment ts = .ok (e, ts')) :
    ts' <:+ ts ∧ ∀ op ∈ astOps e, ∃ t ∈ ts, t.value = op := by
  rcases ts with _ | ⟨t, _ | ⟨eqTok, ts1⟩⟩
  · rw [parseAssignment] at h
    cases h
  · rw [parseAssignment] at h
    cases h
  · rw [parseAssignment] at h
    rcases hp : parseExpression ts1 with m | ⟨v, ts2⟩ <;> rw [hp] at h
    · cases h
    cases h
    obtain ⟨hsfx, hops⟩ := parseExpression_inv hp
    refine ⟨hsfx.trans ((List.suffix_cons eqTok ts1).trans
      (List.suffix_cons t (eqTok :: ts1))), ?_⟩
    intro op hop
    simp only [astOps] at hop
    obtain ⟨t2, ht2, hval⟩ := hops op hop
    exact ⟨t2, List.mem_cons_of_mem t (List.mem_cons_of_mem eqTok ht2), hval⟩

/-- Statement-level invariant: parsing consumes a prefix (the remainder
is a suffix of the input) and every operator text in the produced AST is
the text of an input token. -/
theorem parseStatement_inv :
    ∀ fuel : Nat,
      (∀ (ts : List Token) (e : ASTNode) (ts' : List Token),
        parseStatement fuel ts = .ok (e, ts') →
        ts' <:+ ts ∧ ∀ op ∈ astOps e, ∃ t ∈ ts, t.value = op) ∧
      (∀ (ts : List Token) (e : ASTNode) (ts' : List Token),
        parseIfStatement fuel ts = .ok (e, ts') →
        ts' <:+ ts ∧ ∀ op ∈ astOps e, ∃ t ∈ ts, t.value = op) ∧
      (∀ (acc : List ASTNode) (ts : List Token) (l : List ASTNode)
          (ts' : List Token),
        parseIfBody fuel acc ts = .ok (l, ts') →
        ts' <:+ ts ∧ ∀ op ∈ astOpsList l,
          op ∈ astOpsList acc ∨ ∃ t ∈ ts, t.value = op) := by
  intro fuel
  induction fuel with
  | zero =>
    refine ⟨?_, ?_, ?_⟩
    · intro ts e ts' h
      cases h
    · intro ts e ts' h
      cases h
    · intro acc ts l ts' h
      cases h
  | succ n ih =>
    obtain ⟨ihS, ihI, ihB⟩ := ih
    refine ⟨?_, ?_, ?_⟩
    · -- parseStatement
      intro ts e ts' h
      rw [parseStatement] at h
      rcases hskip : skipNewlines ts with _ | ⟨t, rest⟩ <;> rw [hskip] at h
      · cases h
      have hsfxskip : t :: rest <:+ ts := by
        rw [← hskip]; exact skipNewlines_suffix ts
      dsimp only at h
      split at h
      · -- assignment
        rcases ha : parseAssignment (t :: rest) with m | ⟨node, ts1⟩ <;>
          rw [ha] at h
        · cases h
        cases h
        obtain ⟨hsfx, hops⟩ := parseAssignment_inv ha
        refine ⟨((consumeNewline_suffix ts1).trans hsfx).trans hsfxskip, ?_⟩
        intro op hop
        obtain ⟨t2, ht2, hval⟩ := hops op hop
        exact ⟨t2, hsfxskip.subset ht2, hval⟩
      · split at h
        · -- if statement
          obtain ⟨hsfx, hops⟩ := ihI _ _ _ h
          refine ⟨hsfx.trans hsfxskip, ?_⟩
          intro op hop
          obtain ⟨t2, ht2, hval⟩ := hops op hop
          exact ⟨t2, hsfxskip.subset ht2, hval⟩
        · -- bare expression
          rcases hx : parseExpression (t :: rest) with m | ⟨node, ts1⟩ <;>
            rw [hx] at h
          · cases h
          cases h
          obtain ⟨hsfx, hops⟩ := parseExpression_inv hx
          refine ⟨((consumeNewline_suffix ts1).trans hsfx).trans hsfxskip, ?_⟩
          intro op hop
          obtain ⟨t2, ht2, hval⟩ := hops op hop
          exact ⟨t2, hsfxskip.subset ht2, hval⟩
    · -- parseIfStatement
      intro ts e ts' h
      rw [parseIfStatement] at h
      rcases hx : parseExpression ts.tail with m | ⟨cond, ts2⟩ <;>
        rw [hx] at h
      · cases h
      dsimp only at h
      split at h
      · rcases hb : parseIfBody n [] (consumeNewline ts2).tail with m | ⟨body, ts4⟩ <;>
          rw [hb] at h
        · cases h
        cases h
        obtain ⟨hsfxE, hopsE⟩ := parseExpression_inv hx
        obtain ⟨hsfxB, hopsB⟩ := ihB _ _ _ _ hb
        have htail : (ts.tail : List Token) <:+ ts := List.tail_suffix ts
        have htail2 : ((consumeNewline ts2).tail : List Token) <:+ ts :=
          ((List.tail_suffix (consumeNewline ts2)).trans
            ((consumeNewline_suffix ts2).trans (hsfxE.trans htail)))
        refine ⟨hsfxB.trans htail2, ?_⟩
        intro op hop
        simp only [astOps] at hop
        rcases List.mem_append.mp hop with hc | hbop
        · obtain ⟨t2, ht2, hval⟩ := hopsE op hc
          exact ⟨t2, htail.subset ht2, hval⟩
        · rcases hopsB op hbop with hacc | ⟨t2, ht2, hval⟩
          · simp [astOpsList] at hacc
          · exact ⟨t2, htail2.subset ht2, hval⟩
      · cases h
    · -- parseIfBody
      intro acc ts l ts' h
      rw [parseIfBody] at h
      split at h
      · rcases hs : parseStatement n ts with m | ⟨node, ts1⟩ <;> rw [hs] at h
        · cases h
        dsimp only at h
        obtain ⟨hsfxS, hopsS⟩ := ihS _ _ _ hs
        obtain ⟨hsfxB, hopsB⟩ := ihB _ _ _ _ h
        refine ⟨hsfxB.trans hsfxS, ?_⟩
        intro op hop
        rcases hopsB op hop with hacc | ⟨t2, ht2, hval⟩
        · -- op in acc ++ [node]
          rw [astOpsList_append] at hacc
          rcases List.mem_append.mp hacc with h1 | h2
          · exact .inl h1
          · have h3 : op ∈ astOps node := by
              simpa [astOpsList] using h2
            obtain ⟨t2, ht2, hval⟩ := hopsS op h3
            exact .inr ⟨t2, ht2, hval⟩
        · exact .inr ⟨t2, hsfxS.subset ht2, hval⟩
      · split at h
        · cases h
          exact ⟨List.suffix_refl _, fun op hop => .inl hop⟩
        · cases h
          exact ⟨consumeDedent_suffix _, fun op hop => .inl hop⟩

/-- Program-level invariant: every operator text in a parsed program is
the text of an input token. -/
theorem parseProgram_inv :
    ∀ (fuel : Nat) (ts : List Token) (asts : List ASTNode),
      parseProgram fuel ts = .ok asts →
      ∀ op ∈ astOpsList asts, ∃ t ∈ ts, t.value = op := by
  intro fuel
  induction fuel with
  | zero => intro ts asts h; cases h
  | succ n ih =>
    intro ts asts h
    rw [parseProgram] at h
    split at h
    · cases h
      intro op hop
      simp [astOpsList] at hop
    · rcases hs : parseStatement n ts with m | ⟨node, ts1⟩ <;> rw [hs] at h
      · cases h
      dsimp only at h
      rcases hp : parseProgram n ts1 with m | nodes <;> rw [hp] at h
      · cases h
      cases h
      obtain ⟨hsfx, hops⟩ := (parseStatement_inv n).1 _ _ _ hs
      intro op hop
      simp only [astOpsList, List.mem_append] at hop
      rcases hop with hn | hrest
      · exact hops op hn
      · obtain ⟨t2, ht2, hval⟩ := ih ts1 nodes hp op hrest
        exact ⟨t2, hsfx.subset ht2, hval⟩

/-- Counterexample to claim C5 as stated: the source "x != y\n" contains
the two-character comparison `!=` between the operands x and y, yet
parsing its token sequence raises no error at all — the lexer silently
skips `!` (it is not an operator character), leaving `x = y`, which
parses as an assignment. -/
theorem claim_C5_cex :
    parse (tokenize "x != y\n") =
      .ok [.AssignmentNode "x" (.VariableNode "y")] := by
  rfl

set_option maxHeartbeats 1600000 in
/-- Claim C5, amended: for `<=`, `>=` and `==` the parser does raise an
unexpected-token error on the leftover `=` token (shown on concrete
sources), but for `!=` the `!` is silently skipped by the lexer, so a
source such as "x != y" parses without error as an assignment.  In all
cases the lexer never emits a two-character operator text, no AST parsed
from lexer output contains a BinaryOp with operator `<=`, `>=`, `==` or
`!=`, and the generator's setle/setge/sete/setne branches are selected
only by exactly those operator texts — hence they are unreachable
through the full pipeline. -/
theorem claim_C5 :
    (∀ (s : String) (t : Token), t ∈ tokenize s →
        t.value ∉ (["<=", ">=", "==", "!="] : List String)) ∧
    (∀ (s : String) (asts : List ASTNode), parse (tokenize s) = .ok asts →
        ∀ op ∈ astOpsList asts,
          op ∉ (["<=", ">=", "==", "!="] : List String)) ∧
    (∀ op : String, "setle al" ∈ binOpInstrs op → op = "<=") ∧
    (∀ op : String, "setge al" ∈ binOpInstrs op → op = ">=") ∧
    (∀ op : String, "sete al" ∈ binOpInstrs op → op = "==") ∧
    (∀ op : String, "setne al" ∈ binOpInstrs op → op = "!=") ∧
    parse (tokenize "x <= y") = .error "Unexpected token: =" ∧
    parse (tokenize "x >= y") = .error "Unexpected token: =" ∧
    parse (tokenize "x == y") = .error "Unexpected token: =" := by
  have hbranch : ∀ (ins op : String), ins ∈ binOpInstrs op →
      ins ∈ (["cmp eax, ebx", "movzx eax, al", "add eax, ebx",
              "sub eax, ebx", "imul eax, ebx", "cdq", "idiv ebx"] :
              List String) ∨
      (op = "<" ∧ ins = "setl al") ∨ (op = ">" ∧ ins = "setg al") ∨
      (op = "<=" ∧ ins = "setle al") ∨ (op = ">=" ∧ ins = "setge al") ∨
      (op = "==" ∧ ins = "sete al") ∨ (op = "!=" ∧ ins = "setne al") := by
    intro ins op h
    unfold binOpInstrs at h
    split at h
    · rcases List.mem_singleton.mp h with rfl
      exact .inl (by decide)
    · split at h
      · rcases List.mem_singleton.mp h with rfl
        exact .inl (by decide)
      · split at h
        · rcases List.mem_singleton.mp h with rfl
          exact .inl (by decide)
        · split at h
          · rcases List.mem_cons.mp h with rfl | h2
            · exact .inl (by decide)
            · rcases List.mem_singleton.mp h2 with rfl
              exact .inl (by decide)
          · split at h
            · rcases List.mem_append.mp h with h1 | h2
              · rcases List.mem_append.mp h1 with h1a | h1b
                · rcases List.mem_singleton.mp h1a with rfl
                  exact .inl (by decide)
                · split at h1b
                  · next hop =>
                    rcases List.mem_singleton.mp h1b with rfl
                    exact .inr (.inl ⟨hop, rfl⟩)
                  · split at h1b
                    · next hop =>
                      rcases List.mem_singleton.mp h1b with rfl
                      exact .inr (.inr (.inl ⟨hop, rfl⟩))
                    · split at h1b
                      · next hop =>
                        rcases List.mem_singleton.mp h1b with rfl
                        exact .inr (.inr (.inr (.inl ⟨hop, rfl⟩)))
                      · split at h1b
                        · next hop =>
                          rcases List.mem_singleton.mp h1b with rfl
                          exact .inr (.inr (.inr (.inr (.inl ⟨hop, rfl⟩))))
                        · split at h1b
                          · next hop =>
                            rcases List.mem_singleton.mp h1b with rfl
                            exact .inr (.inr (.inr (.inr (.inr
                              (.inl ⟨hop, rfl⟩)))))
                          · split at h1b
                            · next hop =>
                              rcases List.mem_singleton.mp h1b with rfl
                              exact .inr (.inr (.inr (.inr (.inr
                                (.inr ⟨hop, rfl⟩)))))
                            · cases h1b
              · rcases List.mem_singleton.mp h2 with rfl
                exact .inl (by decide)
            · cases h
  refine ⟨?_, ?_, ?_, ?_, ?_, ?_, by rfl, by rfl, by rfl⟩
  · intro s t ht
    exact tokenShape_not_twochar t (tokenize_shape s t ht)
  · intro s asts h op hop hmem
    unfold parse at h
    obtain ⟨t, htmem, hval⟩ := parseProgram_inv _ _ _ h op hop
    have := tokenShape_not_twochar t (tokenize_shape s t htmem)
    rw [hval] at this
    exact this hmem
  · intro op h
    rcases hbranch _ _ h with h | h | h | h | h | h | h <;>
      first
        | (exact absurd h (by decide))
        | (exact h.1)
        | (exact absurd h.2 (by decide))
  · intro op h
    rcases hbranch _ _ h with h | h | h | h | h | h | h <;>
      first
        | (exact absurd h (by decide))
        | (exact h.1)
        | (exact absurd h.2 (by decide))
  · intro op h
    rcases hbranch _ _ h with h | h | h | h | h | h | h <;>
      first
        | (exact absurd h (by decide))
        | (exact h.1)
        | (exact absurd h.2 (by decide))
  · intro op h
    rcases hbranch _ _ h with h | h | h | h | h | h | h <;>
      first
        | (exact absurd h (by decide))
        | (exact h.1)
        | (exact absurd h.2 (by decide))

/-- Witness for C5 at a concrete input: the `<` token that the lexer
produces for "a <= b" does not carry a two-character operator text. -/
theorem claim_C5_witness :
    (Token.mk .OPERATOR "<" 1 3).value ∉
      (["<=", ">=", "==", "!="] : List String) :=
  claim_C5.1 "a <= b" (Token.mk .OPERATOR "<" 1 3) (by decide)

/-! ### Indentation-width equivalence of tabs and four spaces (C9) -/

theorem filterID_append (a b : List Token) :
    filterID (a ++ b) = filterID a ++ filterID b :=
  List.filter_append a b

theorem takeWhile_append_stop (p : Char → Bool) (x y : List Char) (c : Char)
    (hc : p c = false) :
    List.takeWhile p (x ++ c :: y) = List.takeWhile p x ∧
    List.dropWhile p (x ++ c :: y) = List.dropWhile p x ++ c :: y := by
  induction x with
  | nil =>
    simp [List.takeWhile_cons, List.dropWhile_cons, hc]
  | cons d ds ih =>
    by_cases hd : p d
    · simp only [List.cons_append, List.takeWhile_cons, List.dropWhile_cons,
        hd, if_pos]
      exact ⟨by rw [ih.1], by rw [ih.2]⟩
    · simp [List.takeWhile_cons, List.dropWhile_cons, hd]

theorem scanIndent_blank_cons (d : Char) (l : List Char)
    (hd : isBlank d = true) :
    (scanIndent (d :: l)).1 = (if d = ' ' then 1 else 4) + (scanIndent l).1 ∧
    (scanIndent (d :: l)).2.1 = 1 + (scanIndent l).2.1 ∧
    (scanIndent (d :: l)).2.2 = (scanIndent l).2.2 := by
  by_cases hds : d = ' '
  · subst hds
    rw [scanIndent]
    simp
    omega
  · have hdt : d = '\t' := by
      simp only [isBlank, Bool.or_eq_true_iff, decide_eq_true_eq] at hd
      tauto
    subst hdt
    rw [scanIndent]
    simp
    omega

theorem scanIndent_nonblank_cons (d : Char) (l : List Char)
    (hd : isBlank d = false) :
    scanIndent (d :: l) = (0, 0, d :: l) := by
  have h1 : ¬ d = ' ' := by
    intro h
    rw [h] at hd
    exact absurd hd (by decide)
  have h2 : ¬ d = '\t' := by
    intro h
    rw [h] at hd
    exact absurd hd (by decide)
  rw [scanIndent, if_neg h1, if_neg h2]

theorem scanIndent_append_stop (x y : List Char) (c : Char)
    (hc : isBlank c = false) :
    (scanIndent (x ++ c :: y)).1 = (scanIndent x).1 ∧
    (scanIndent (x ++ c :: y)).2.1 = (scanIndent x).2.1 ∧
    (scanIndent (x ++ c :: y)).2.2 = (scanIndent x).2.2 ++ c :: y := by
  induction x with
  | nil =>
    rw [List.nil_append, scanIndent_nonblank_cons c y hc]
    exact ⟨rfl, rfl, rfl⟩
  | cons d ds ih =>
    by_cases hd : isBlank d
    · have hc1 := scanIndent_blank_cons d (ds ++ c :: y) hd
      have hc2 := scanIndent_blank_cons d ds hd
      refine ⟨?_, ?_, ?_⟩
      · rw [List.cons_append, hc1.1, hc2.1, ih.1]
      · rw [List.cons_append, hc1.2.1, hc2.2.1, ih.2.1]
      · rw [List.cons_append, hc1.2.2, hc2.2.2, ih.2.2]
    · have h0 := scanIndent_nonblank_cons d (ds ++ c :: y)
        (by simpa using hd)
      have h0' := scanIndent_nonblank_cons d ds (by simpa using hd)
      rw [List.cons_append, h0, h0']
      exact ⟨rfl, rfl, rfl⟩

theorem scanIndent_blank_prefix (x y : List Char)
    (hx : ∀ c ∈ x, isBlank c = true) :
    (scanIndent (x ++ y)).1 = blankWidth x + (scanIndent y).1 ∧
    (scanIndent (x ++ y)).2.1 = x.length + (scanIndent y).2.1 ∧
    (scanIndent (x ++ y)).2.2 = (scanIndent y).2.2 := by
  induction x with
  | nil => simp [blankWidth]
  | cons d ds ih =>
    have hd := hx d (List.mem_cons_self d ds)
    have ih2 := ih (fun c hc => hx c (List.mem_cons_of_mem d hc))
    have hc1 := scanIndent_blank_cons d (ds ++ y) hd
    refine ⟨?_, ?_, ?_⟩
    · rw [List.cons_append, hc1.1, ih2.1]
      rw [show blankWidth (d :: ds)
          = (if d = ' ' then 1 else 4) + blankWidth ds from rfl]
      omega
    · rw [List.cons_append, hc1.2.1, ih2.2.1, List.length_cons]
      omega
    · rw [List.cons_append, hc1.2.2, ih2.2.2]

theorem scanIndent_tab (w2 : List Char) :
    (scanIndent ('\t' :: w2)).1 = (scanIndent w2).1 + 4 ∧
    (scanIndent ('\t' :: w2)).2.1 = (scanIndent w2).2.1 + 1 ∧
    (scanIndent ('\t' :: w2)).2.2 = (scanIndent w2).2.2 := by
  simp only [scanIndent, if_neg (by decide : ¬ '\t' = ' '),
    if_pos (rfl : '\t' = '\t')]
  exact ⟨rfl, rfl, rfl⟩

/-- The width and remainder of the indentation scan agree on the two
sides of a tab-for-four-spaces replacement. -/
theorem scanIndent_tabRel {u v : List Char} (h : TabRel u v) :
    (scanIndent u).1 = (scanIndent v).1 ∧
    (scanIndent u).2.2 = (scanIndent v).2.2 := by
  obtain ⟨w1, w2, hw1, rfl, rfl⟩ := h
  obtain ⟨hu1, -, hu3⟩ := scanIndent_blank_prefix w1 ('\t' :: w2) hw1
  obtain ⟨hv1, -, hv3⟩ :=
    scanIndent_blank_prefix w1 (List.replicate 4 ' ' ++ w2) hw1
  obtain ⟨ht1, -, ht3⟩ := scanIndent_tab w2
  obtain ⟨hr1, -, hr3⟩ := scanIndent_blank_prefix (List.replicate 4 ' ') w2
    (fun c hc => by rw [List.eq_of_mem_replicate hc]; rfl)
  constructor
  · rw [hu1, hv1, ht1, hr1]
    have hbw : blankWidth (List.replicate 4 ' ') = 4 := rfl
    rw [hbw]
    omega
  · rw [hu3, hv3, ht3, hr3]

/-- `handle_indentation` decomposed into its effect on each state
component: the emitted tokens and the new stack depend only on the
measured width, the line and the old stack; the new source is the scan
remainder; the line is unchanged; the column advances by the number of
characters scanned. -/
theorem handleIndentation_parts (st : LexState) :
    (handleIndentation st).1 =
        hiTokens (scanIndent st.src).1 st.line st.indentStack ∧
    (handleIndentation st).2.src = (scanIndent st.src).2.2 ∧
    (handleIndentation st).2.line = st.line ∧
    (handleIndentation st).2.indentStack =
        hiStack (scanIndent st.src).1 st.line st.indentStack ∧
    (handleIndentation st).2.column =
        st.column + (scanIndent st.src).2.1 := by
  unfold handleIndentation hiTokens hiStack
  dsimp only
  rcases hst : st.indentStack with _ | ⟨top, rest⟩
  · exact ⟨rfl, rfl, rfl, rfl, rfl⟩
  · dsimp only
    by_cases hw : (scanIndent st.src).1 > top
    · rw [if_pos hw, if_pos hw, if_pos hw]
      exact ⟨rfl, rfl, rfl, rfl, rfl⟩
    · rw [if_neg hw, if_neg hw, if_neg hw]
      exact ⟨rfl, rfl, rfl, rfl, rfl⟩

/-- A scan-loop iteration from two states that agree on everything but
the column produces the same INDENT/DEDENT tokens and successor states
again agreeing on everything but the column. -/
theorem lexStep_colRel (st st' : LexState) (c : Char) (cs : List Char)
    (h1 : st.src = c :: cs) (h2 : st'.src = c :: cs)
    (hline : st.line = st'.line)
    (hstack : st.indentStack = st'.indentStack) :
    filterID (lexStep st c cs).1 = filterID (lexStep st' c cs).1 ∧
    (lexStep st c cs).2.src = (lexStep st' c cs).2.src ∧
    (lexStep st c cs).2.line = (lexStep st' c cs).2.line ∧
    (lexStep st c cs).2.indentStack = (lexStep st' c cs).2.indentStack := by
  rcases st with ⟨src, L, col, S⟩
  rcases st' with ⟨src', L', col', S'⟩
  simp only at h1 h2 hline hstack
  subst h1
  subst h2
  subst hline
  subst hstack
  unfold lexStep
  split
  · split
    · exact ⟨rfl, rfl, rfl, rfl⟩
    · exact ⟨rfl, rfl, rfl, rfl⟩
  · split
    · exact ⟨rfl, rfl, rfl, rfl⟩
    · split
      · exact ⟨rfl, rfl, rfl, rfl⟩
      · split
        · dsimp only
          split
          · exact ⟨rfl, rfl, rfl, rfl⟩
          · exact ⟨rfl, rfl, rfl, rfl⟩
        · split
          · exact ⟨rfl, rfl, rfl, rfl⟩
          · exact ⟨rfl, rfl, rfl, rfl⟩

/-- Running the scan loop from two states that agree on everything but
the column yields the same INDENT/DEDENT subsequence. -/
theorem tokenizeLoop_colRel :
    ∀ (fuel : Nat) (st st' : LexState),
      st.src = st'.src → st.line = st'.line →
      st.indentStack = st'.indentStack →
      filterID (tokenizeLoop fuel st).1 = filterID (tokenizeLoop fuel st').1 := by
  intro fuel
  induction fuel with
  | zero => intro st st' _ _ _; rfl
  | succ n ih =>
    intro st st' hsrc hline hstack
    rw [tokenizeLoop, tokenizeLoop]
    rcases h1 : st.src with _ | ⟨c, cs⟩
    · rw [← hsrc, h1]
    · rw [← hsrc, h1]
      dsimp only
      obtain ⟨ht, hs, hl, hk⟩ := lexStep_colRel st st' c cs h1 (by rw [← hsrc, h1]) hline hstack
      rw [filterID_append, filterID_append, ht,
        ih (lexStep st c cs).2 (lexStep st' c cs).2 hs hl hk]

/-- A scan-loop iteration on the common prefix before the replacement
site: both sides emit identical tokens and reach states that again agree
on everything, with a (possibly shorter) common prefix ahead of the
differing indentation run. -/
theorem lexStep_tabRel (u v a' : List Char)
    (c : Char) (L C : Nat) (S : List Nat) :
    (lexStep ⟨c :: (a' ++ '\n' :: u), L, C, S⟩ c (a' ++ '\n' :: u)).1
      = (lexStep ⟨c :: (a' ++ '\n' :: v), L, C, S⟩ c (a' ++ '\n' :: v)).1 ∧
    ∃ (a2 : List Char) (L2 C2 : Nat) (S2 : List Nat),
      (lexStep ⟨c :: (a' ++ '\n' :: u), L, C, S⟩ c (a' ++ '\n' :: u)).2
        = ⟨a2 ++ '\n' :: u, L2, C2, S2⟩ ∧
      (lexStep ⟨c :: (a' ++ '\n' :: v), L, C, S⟩ c (a' ++ '\n' :: v)).2
        = ⟨a2 ++ '\n' :: v, L2, C2, S2⟩ := by
  have hcons : ∀ w : List Char, c :: (a' ++ '\n' :: w)
      = (c :: a') ++ '\n' :: w := fun w => rfl
  unfold lexStep
  dsimp only
  split
  · split
    · -- c is the newline: handle indentation on a' ++ newline :: u/v
      next hnl =>
      obtain ⟨hTu, hSu, hLu, hKu, hCu⟩ :=
        handleIndentation_parts ⟨a' ++ '\n' :: u, L + 1, 1, S⟩
      obtain ⟨hTv, hSv, hLv, hKv, hCv⟩ :=
        handleIndentation_parts ⟨a' ++ '\n' :: v, L + 1, 1, S⟩
      obtain ⟨hw_u, -, hr_u⟩ := scanIndent_append_stop a' ('\n' :: u).tail '\n'
        (by decide)
      obtain ⟨hw_v, -, hr_v⟩ := scanIndent_append_stop a' ('\n' :: v).tail '\n'
        (by decide)
      obtain ⟨hw_u2, hc_u2, hr_u2⟩ := scanIndent_append_stop a' u '\n' (by decide)
      obtain ⟨hw_v2, hc_v2, hr_v2⟩ := scanIndent_append_stop a' v '\n' (by decide)
      constructor
      · rw [hTu, hTv]
        dsimp only at hw_u2 hw_v2 ⊢
        rw [hw_u2, hw_v2]
      · refine ⟨(scanIndent a').2.2, L + 1, 1 + (scanIndent a').2.1,
          hiStack (scanIndent a').1 (L + 1) S, ?_, ?_⟩
        · have heta : (handleIndentation ⟨a' ++ '\n' :: u, L + 1, 1, S⟩).2
              = ⟨(handleIndentation ⟨a' ++ '\n' :: u, L + 1, 1, S⟩).2.src,
                 (handleIndentation ⟨a' ++ '\n' :: u, L + 1, 1, S⟩).2.line,
                 (handleIndentation ⟨a' ++ '\n' :: u, L + 1, 1, S⟩).2.column,
                 (handleIndentation ⟨a' ++ '\n' :: u, L + 1, 1, S⟩).2.indentStack⟩ :=
            rfl
          rw [heta, hSu, hLu, hKu, hCu]
          dsimp only
          rw [hr_u2, hw_u2, hc_u2]
        · have heta : (handleIndentation ⟨a' ++ '\n' :: v, L + 1, 1, S⟩).2
              = ⟨(handleIndentation ⟨a' ++ '\n' :: v, L + 1, 1, S⟩).2.src,
                 (handleIndentation ⟨a' ++ '\n' :: v, L + 1, 1, S⟩).2.line,
                 (handleIndentation ⟨a' ++ '\n' :: v, L + 1, 1, S⟩).2.column,
                 (handleIndentation ⟨a' ++ '\n' :: v, L + 1, 1, S⟩).2.indentStack⟩ :=
            rfl
          rw [heta, hSv, hLv, hKv, hCv]
          dsimp only
          rw [hr_v2, hw_v2, hc_v2]
    · -- other whitespace
      exact ⟨rfl, a', L, C + 1, S, rfl, rfl⟩
  · split
    · -- comment
      obtain ⟨htw_u, hdw_u⟩ := takeWhile_append_stop
        (fun x => decide (¬ x = '\n')) (c :: a') u '\n' (by decide)
      obtain ⟨htw_v, hdw_v⟩ := takeWhile_append_stop
        (fun x => decide (¬ x = '\n')) (c :: a') v '\n' (by decide)
      rw [hcons u, hcons v, htw_u, hdw_u, htw_v, hdw_v]
      exact ⟨rfl,
        List.dropWhile (fun x => decide (¬ x = '\n')) (c :: a'), L,
        C + (List.takeWhile (fun x => decide (¬ x = '\n')) (c :: a')).length,
        S, rfl, rfl⟩
    · split
      · -- number
        obtain ⟨htw_u, hdw_u⟩ := takeWhile_append_stop pyIsDigit (c :: a') u '\n'
          (by decide)
        obtain ⟨htw_v, hdw_v⟩ := takeWhile_append_stop pyIsDigit (c :: a') v '\n'
          (by decide)
        rw [hcons u, hcons v, htw_u, hdw_u, htw_v, hdw_v]
        exact ⟨rfl,
          List.dropWhile pyIsDigit (c :: a'), L,
          C + (List.takeWhile pyIsDigit (c :: a')).length, S, rfl, rfl⟩
      · split
        · -- identifier or keyword
          obtain ⟨htw_u, hdw_u⟩ := takeWhile_append_stop isIdentChar (c :: a') u
            '\n' (by decide)
          obtain ⟨htw_v, hdw_v⟩ := takeWhile_append_stop isIdentChar (c :: a') v
            '\n' (by decide)
          rw [hcons u, hcons v, htw_u, hdw_u, htw_v, hdw_v]
          exact ⟨rfl,
            List.dropWhile isIdentChar (c :: a'), L,
            C + (List.takeWhile isIdentChar (c :: a')).length, S, rfl, rfl⟩
        · split
          · -- operator
            exact ⟨rfl, a', L, C + 1, S, rfl, rfl⟩
          · -- skipped character
            exact ⟨rfl, a', L, C + 1, S, rfl, rfl⟩

theorem filterID_cons_ns (t : Token) (l : List Token)
    (h : isStructuralTok t = false) : filterID (t :: l) = filterID l := by
  simp [filterID, List.filter_cons, h]

theorem lexStep_newline (w : List Char) (L C : Nat) (S : List Nat) :
    lexStep ⟨'\n' :: w, L, C, S⟩ '\n' w =
      (Token.mk .NEWLINE "\n" L C :: (handleIndentation ⟨w, L + 1, 1, S⟩).1,
       (handleIndentation ⟨w, L + 1, 1, S⟩).2) := by
  rfl

/-- Running the scan loop over a common prefix, a newline, and then two
indentation runs related by a tab-for-four-spaces replacement yields the
same INDENT/DEDENT subsequence. -/
theorem tokenizeLoop_tabRel {u v : List Char} (h : TabRel u v) :
    ∀ (fuel : Nat) (a : List Char) (L C : Nat) (S : List Nat),
      filterID (tokenizeLoop fuel ⟨a ++ '\n' :: u, L, C, S⟩).1
        = filterID (tokenizeLoop fuel ⟨a ++ '\n' :: v, L, C, S⟩).1 := by
  intro fuel
  induction fuel with
  | zero => intro a L C S; rfl
  | succ n ih =>
    intro a L C S
    rw [tokenizeLoop, tokenizeLoop]
    rcases a with _ | ⟨c, a'⟩
    · -- boundary: the head character is the newline before the
      -- differing indentation runs
      simp only [List.nil_append]
      rw [lexStep_newline u L C S, lexStep_newline v L C S]
      dsimp only
      obtain ⟨hTu, hSu, hLu, hKu, -⟩ :=
        handleIndentation_parts ⟨u, L + 1, 1, S⟩
      obtain ⟨hTv, hSv, hLv, hKv, -⟩ :=
        handleIndentation_parts ⟨v, L + 1, 1, S⟩
      obtain ⟨hW, hR⟩ := scanIndent_tabRel h
      rw [filterID_append, filterID_append,
        filterID_cons_ns _ _ (by rfl), filterID_cons_ns _ _ (by rfl),
        hTu, hTv, hW]
      have hcont := tokenizeLoop_colRel n
        (handleIndentation ⟨u, L + 1, 1, S⟩).2
        (handleIndentation ⟨v, L + 1, 1, S⟩).2
        (by rw [hSu, hSv, hR]) (by rw [hLu, hLv]) (by rw [hKu, hKv, hW])
      rw [hcont]
    · -- inside the common prefix
      simp only [List.cons_append]
      obtain ⟨htok, a2, L2, C2, S2, hu, hv⟩ := lexStep_tabRel u v a' c L C S
      rw [filterID_append, filterID_append, htok, hu, hv, ih a2 L2 C2 S2]

/-- With more fuel than remaining source, the scan loop's result does
not depend on the exact fuel. -/
theorem tokenizeLoop_fuel_irrel :
    ∀ (f1 f2 : Nat) (st : LexState),
      st.src.length < f1 → st.src.length < f2 →
      tokenizeLoop f1 st = tokenizeLoop f2 st := by
  intro f1
  induction f1 with
  | zero => intro f2 st h1 _; omega
  | succ n ih =>
    intro f2 st h1 h2
    match f2, h2 with
    | m + 1, h2 =>
      rw [tokenizeLoop, tokenizeLoop]
      rcases hsrc : st.src with _ | ⟨c, cs⟩
      · rfl
      · dsimp only
        have hle := lexStep_src_le st c cs hsrc
        rw [hsrc] at h1 h2
        simp only [List.length_cons] at h1 h2
        rw [ih m (lexStep st c cs).2 (by omega) (by omega)]

/-- Claim C9: replacing one tab with four spaces inside a run of leading
indentation leaves the measured indentation width unchanged (a space
contributes 1 and a tab 4) and therefore produces the same sequence of
INDENT and DEDENT tokens. -/
theorem claim_C9 (a w1 w2 : List Char)
    (hw1 : ∀ c ∈ w1, isBlank c = true) :
    (scanIndent (w1 ++ '\t' :: w2)).1 =
        (scanIndent (w1 ++ (List.replicate 4 ' ' ++ w2))).1 ∧
    filterID (tokenize ⟨a ++ '\n' :: (w1 ++ '\t' :: w2)⟩)
      = filterID (tokenize ⟨a ++ '\n' :: (w1 ++ (List.replicate 4 ' ' ++ w2))⟩) := by
  have hrel : TabRel (w1 ++ '\t' :: w2) (w1 ++ (List.replicate 4 ' ' ++ w2)) :=
    ⟨w1, w2, hw1, rfl, rfl⟩
  constructor
  · exact (scanIndent_tabRel hrel).1
  · unfold tokenize
    rw [filterID_append, filterID_append,
      filterID_cons_ns _ _ (by rfl), filterID_cons_ns _ _ (by rfl)]
    show filterID (tokenizeLoop
        ((a ++ '\n' :: (w1 ++ '\t' :: w2)).length + 1)
        ⟨a ++ '\n' :: (w1 ++ '\t' :: w2), 1, 1, [0]⟩).1 ++ filterID []
      = filterID (tokenizeLoop
        ((a ++ '\n' :: (w1 ++ (List.replicate 4 ' ' ++ w2))).length + 1)
        ⟨a ++ '\n' :: (w1 ++ (List.replicate 4 ' ' ++ w2)), 1, 1, [0]⟩).1
        ++ filterID []
    have hlen1 : (a ++ '\n' :: (w1 ++ '\t' :: w2)).length
        < (a ++ '\n' :: (w1 ++ '\t' :: w2)).length + 1 := Nat.lt_succ_self _
    have hlen2 : (a ++ '\n' :: (w1 ++ '\t' :: w2)).length
        < (a ++ '\n' :: (w1 ++ (List.replicate 4 ' ' ++ w2))).length + 1 := by
      simp only [List.length_append, List.length_cons,
        List.length_replicate]
      omega
    rw [tokenizeLoop_fuel_irrel _ _ ⟨a ++ '\n' :: (w1 ++ '\t' :: w2), 1, 1, [0]⟩
      hlen1 hlen2]
    rw [tokenizeLoop_tabRel hrel
      ((a ++ '\n' :: (w1 ++ (List.replicate 4 ' ' ++ w2))).length + 1) a 1 1 [0]]

/-- Witness for C9 at a concrete input: "x\n\ty" and "x\n    y" produce
the same INDENT/DEDENT token subsequence. -/
theorem claim_C9_witness :
    (scanIndent (([] : List Char) ++ '\t' :: ['y'])).1 =
        (scanIndent (([] : List Char) ++ (List.replicate 4 ' ' ++ ['y']))).1 ∧
    filterID (tokenize ⟨['x'] ++ '\n' :: (([] : List Char) ++ '\t' :: ['y'])⟩)
      = filterID (tokenize
          ⟨['x'] ++ '\n' :: (([] : List Char) ++ (List.replicate 4 ' ' ++ ['y']))⟩) :=
  claim_C9 ['x'] [] ['y'] (fun c hc => absurd hc (List.not_mem_nil c))

end PyToAsm
